import Mathlib

/-!
Shallow embedding of the layer-building core of the `mcp_railway` repository:
`app/scripts/build_layer_10_financial.py` (column normalization and the
financial layer builder) and `app/scripts/build_layer_20_personal.py`
(role/employee key derivation, role sorting, and the personnel layer builder).

Modelling conventions:
* Python strings are Lean `String`s (lists of characters); `str.strip()` is
  `pyStrip` (ASCII whitespace; exotic Unicode space characters are out of
  scope).
* Cell values flowing through the tables are `Cell` (string or integer);
  floating-point cells and missing-value cells produced by the spreadsheet
  loader are outside the model (the loader is an external collaborator).
* `int(float(code))` is modelled by `pyIntOfFloatStr`: the decimal/exponent
  literal grammar accepted by Python's `float` (including PEP-515 underscore
  digit separators), rounded to an IEEE-754 binary64 value by
  round-to-nearest-even and truncated toward zero; values that round beyond
  the binary64 range give `none`, matching the `OverflowError` that the
  source's `except` turns into the verbatim fallback, as do `inf`/`nan`
  spellings (rejected by the grammar; `int()` raises on them in Python).
  Non-ASCII spellings Python also accepts (Unicode decimal digits, Unicode
  whitespace) are outside the model; every universal theorem that relies on
  the failure branch of the parser carries an explicit ASCII hypothesis.
* `pandas.sort_values` (an unstable comparison sort) is modelled by
  `List.insertionSort` under the same key; tie order between equal keys is
  unspecified in the source, and no theorem below depends on it.
  Comparing a numeric key with a non-numeric key raises `TypeError` in the
  source; `keyLE` arbitrarily orders numeric keys first, the one
  order-sensitive theorem is restricted to key-homogeneous role lists, and
  every other theorem uses only permutation-invariant consequences of the
  sort.
-/

/-! ## Characters and decimal notation -/

/-- ASCII digit test (the digits accepted by Python numeric literals). -/
def cdigit (c : Char) : Bool := decide (48 ≤ c.toNat) && decide (c.toNat ≤ 57)

/-- ASCII alphanumeric test, the class `[0-9A-Za-z]` of the key-stripping
regexes in `build_layer_20_personal.py`. -/
def calnum (c : Char) : Bool :=
  cdigit c || (decide (65 ≤ c.toNat) && decide (c.toNat ≤ 90))
    || (decide (97 ≤ c.toNat) && decide (c.toNat ≤ 122))

/-- Numeric value of an ASCII digit character. -/
def digitVal (c : Char) : Nat := c.toNat - 48

/-- Value of a big-endian string of ASCII digits. -/
def natOfChars (l : List Char) : Nat := l.foldl (fun a c => 10 * a + digitVal c) 0

/-- Little-endian decimal digits of `n` as characters; the first argument is
structural fuel (`n` itself always suffices). -/
def natDigitsAux : Nat → Nat → List Char
  | 0, _ => []
  | _ + 1, 0 => []
  | fuel + 1, n + 1 => Nat.digitChar ((n + 1) % 10) :: natDigitsAux fuel ((n + 1) / 10)

/-- Big-endian decimal representation of a natural number, as produced by
Python `str` on a nonnegative `int`. -/
def natDecRepr (n : Nat) : List Char :=
  if n = 0 then ['0'] else (natDigitsAux n n).reverse

/-- Python `str` on an `int` (decimal, `-` sign for negatives). -/
def intDecStr (i : Int) : String :=
  if i < 0 then String.mk ('-' :: natDecRepr i.natAbs) else String.mk (natDecRepr i.natAbs)

/-- Python `str.zfill`: left-pad with zeros to `width`, keeping a leading
sign in front of the inserted zeros; never truncates. -/
def pyZfill (s : String) (width : Nat) : String :=
  if width ≤ s.length then s
  else
    match s.data with
    | [] => String.mk (List.replicate width '0')
    | c :: rest =>
      if c = '+' ∨ c = '-' then
        String.mk (c :: (List.replicate (width - s.length) '0' ++ rest))
      else
        String.mk (List.replicate (width - s.length) '0' ++ (c :: rest))

/-- Python `str.lower`, restricted to the Latin letters that occur in the
header spellings handled by the scripts (ASCII plus the accented capitals
of the Spanish headers). -/
def pyLowerChar (c : Char) : Char :=
  if 65 ≤ c.toNat ∧ c.toNat ≤ 90 then Char.ofNat (c.toNat + 32)
  else if c = 'Á' then 'á'
  else if c = 'É' then 'é'
  else if c = 'Í' then 'í'
  else if c = 'Ó' then 'ó'
  else if c = 'Ú' then 'ú'
  else if c = 'Ñ' then 'ñ'
  else if c = 'Ü' then 'ü'
  else c

/-- The whitespace characters removed by Python `str.strip()` (ASCII set;
exotic Unicode spaces are out of scope). -/
def isPySpace (c : Char) : Bool :=
  c = ' ' || c = '\t' || c = '\n' || c = '\r' || c = '\x0b' || c = '\x0c'

/-- Python `str.strip()`: drop leading and trailing whitespace. -/
def pyStrip (s : String) : String :=
  String.mk (((s.data.dropWhile isPySpace).reverse.dropWhile isPySpace).reverse)

/-- Python `str.lower` on a whole string. -/
def pyLower (s : String) : String := String.mk (s.data.map pyLowerChar)

/-- `re.sub(r"[^0-9A-Za-z]", "", s)`: drop every non-alphanumeric character. -/
def stripNonAlnum (s : String) : String := String.mk (s.data.filter calnum)

/-! ## Cell values -/

/-- A scalar table cell: a string or an integer.  (Floating-point and
missing cells from the loader are outside the model.) -/
inductive Cell where
  | str (s : String)
  | int (n : Int)
deriving DecidableEq

/-- Python `str()` applied to a cell. -/
def pyStr : Cell → String
  | Cell.str s => s
  | Cell.int n => intDecStr n

/-! ## The Python numeric-literal parsers -/

/-- Consume an optional leading sign; returns whether it was `-`. -/
def parseSign : List Char → Bool × List Char
  | [] => (false, [])
  | c :: rest =>
    if c = '+' then (false, rest)
    else if c = '-' then (true, rest)
    else (false, c :: rest)

/-- The exponent suffix of a float literal, after `e`/`E`: an optional sign
followed by at least one digit. -/
def parseExpPart (cs : List Char) : Option Int :=
  let p := parseSign cs
  if p.2 ≠ [] ∧ p.2.all cdigit then
    some (if p.1 then -(natOfChars p.2 : Int) else (natOfChars p.2 : Int))
  else none

/-- The part of the float literal after the optional sign:
`digits [. digits] [(e|E) [sign] digits]`, with at least one digit in the
mantissa. -/
def parseFloatAfterSign (neg : Bool) (cs : List Char) :
    Option (Bool × List Char × List Char × Int) :=
  match cs.dropWhile cdigit with
  | [] =>
    if cs.takeWhile cdigit = [] then none else some (neg, cs.takeWhile cdigit, [], 0)
  | c :: cs2 =>
    if c = '.' then
      if cs.takeWhile cdigit = [] ∧ cs2.takeWhile cdigit = [] then none
      else
        match cs2.dropWhile cdigit with
        | [] => some (neg, cs.takeWhile cdigit, cs2.takeWhile cdigit, 0)
        | e :: cs3 =>
          if e = 'e' ∨ e = 'E' then
            (parseExpPart cs3).map (fun ex => (neg, cs.takeWhile cdigit, cs2.takeWhile cdigit, ex))
          else none
    else
      if (c = 'e' ∨ c = 'E') ∧ cs.takeWhile cdigit ≠ [] then
        (parseExpPart cs2).map (fun ex => (neg, cs.takeWhile cdigit, [], ex))
      else none

/-- The decimal float literal grammar accepted by Python's `float` on an
already-trimmed string: `[sign] digits [. digits] [(e|E) [sign] digits]`,
with at least one digit in the mantissa.  Returns (negative, integer-part
digits, fraction digits, exponent). -/
def parseFloatCore (cs0 : List Char) : Option (Bool × List Char × List Char × Int) :=
  parseFloatAfterSign (parseSign cs0).1 (parseSign cs0).2

/-- Round-to-nearest, ties to even: the integer nearest `a / b`. -/
def roundNE (a b : Nat) : Nat :=
  if 2 * (a % b) < b then a / b
  else if b < 2 * (a % b) then a / b + 1
  else if (a / b) % 2 = 0 then a / b else a / b + 1

/-- Floor of the base-two logarithm, with structural fuel (`n` itself
always suffices). -/
def natLog2Aux : Nat → Nat → Nat
  | 0, _ => 0
  | fuel + 1, n => if 2 ≤ n then natLog2Aux fuel (n / 2) + 1 else 0

/-- Floor of the base-two logarithm of a positive natural number. -/
def natLog2 (n : Nat) : Nat := natLog2Aux n n

/-- Floor of the base-two logarithm of the positive rational `num / den`. -/
def ilog2 (num den : Nat) : Int :=
  if 0 ≤ ((natLog2 num : Int) - (natLog2 den : Int)) then
    (if den * 2 ^ ((natLog2 num : Int) - (natLog2 den : Int)).toNat ≤ num
      then (natLog2 num : Int) - (natLog2 den : Int)
      else (natLog2 num : Int) - (natLog2 den : Int) - 1)
  else
    (if den ≤ num * 2 ^ (-((natLog2 num : Int) - (natLog2 den : Int))).toNat
      then (natLog2 num : Int) - (natLog2 den : Int)
      else (natLog2 num : Int) - (natLog2 den : Int) - 1)

/-- Assemble the truncated integer part of the rounded value `m × 2^shift`
(`2^52 ≤ m < 2^53`), or `none` on binary64 overflow (value at least
`2^1024`, where Python's `int(float(...))` path raises `OverflowError`). -/
def floatOut (m : Nat) (shift : Int) : Option Nat :=
  if 972 ≤ shift then none
  else some (if 0 ≤ shift then m * 2 ^ shift.toNat else m / 2 ^ (-shift).toNat)

/-- Renormalize after rounding: a mantissa that rounded up to `2^53` moves
to `2^52` with the exponent bumped. -/
def floatFinish (m : Nat) (shift : Int) : Option Nat :=
  if m = 2 ^ 53 then floatOut (2 ^ 52) (shift + 1) else floatOut m shift

/-- `int(float(·))` on the nonnegative rational `num / den`: round to the
nearest binary64 (53 significant bits, ties to even) and truncate toward
zero.  Subnormal rounding detail is irrelevant here: every value below one
truncates to zero unless it rounds up to exactly one, which the generic
path computes correctly. -/
def floatRoundInt (num den : Nat) : Option Nat :=
  if num = 0 then some 0
  else
    floatFinish
      (if 0 ≤ ilog2 num den - 52 then roundNE num (den * 2 ^ (ilog2 num den - 52).toNat)
       else roundNE (num * 2 ^ (-(ilog2 num den - 52)).toNat) den)
      (ilog2 num den - 52)

/-- Numerator of `N × 10^shift10` as an exact rational. -/
def floatValNum (N : Nat) (shift10 : Int) : Nat :=
  if 0 ≤ shift10 then N * 10 ^ shift10.toNat else N

/-- Denominator of `N × 10^shift10` as an exact rational. -/
def floatValDen (shift10 : Int) : Nat :=
  if 0 ≤ shift10 then 1 else 10 ^ (-shift10).toNat

/-- `int(float(·))` of the parsed literal `± ip.fp × 10^ex`: round the
exact decimal value to binary64, truncate toward zero, apply the sign. -/
def pyFloatTrunc (neg : Bool) (ip fp : List Char) (ex : Int) : Option Int :=
  (floatRoundInt (floatValNum (natOfChars (ip ++ fp)) (ex - fp.length))
      (floatValDen (ex - fp.length))).map
    (fun mag => if neg then -(mag : Int) else (mag : Int))

/-- PEP-515 validity: every underscore sits between two digits.  The first
argument is the previous character, if any. -/
def usOKAux : Option Char → List Char → Bool
  | _, [] => true
  | prev, c :: rest =>
    if c = '_' then
      (match prev with
        | some p => cdigit p
        | none => false)
        && (match rest with
            | d :: _ => cdigit d
            | [] => false)
        && usOKAux (some c) rest
    else usOKAux (some c) rest

/-- PEP-515 validity of a whole literal. -/
def usOK (l : List Char) : Bool := usOKAux none l

/-- Remove the underscore digit separators before parsing. -/
def stripUS (l : List Char) : List Char := l.filter (fun c => !(c == '_'))

/-- `int(float(s))` for an already-trimmed string `s`: validate and strip
underscores, parse the float literal, round to binary64 and truncate
toward zero; `none` when the `try` block of the source would raise
(malformed literal, `inf`/`nan`, or overflow). -/
def pyIntOfFloatStr (s : String) : Option Int :=
  if usOK s.data then
    (parseFloatCore (stripUS s.data)).bind
      (fun q => pyFloatTrunc q.1 q.2.1 q.2.2.1 q.2.2.2)
  else none

/-- `int(s)` on a string: optional surrounding whitespace, optional sign,
then at least one digit, with PEP-515 underscore separators allowed. -/
def pyIntOfStr (s : String) : Option Int :=
  if usOK (pyStrip s).data then
    (if stripUS (parseSign (pyStrip s).data).2 ≠ []
        ∧ (stripUS (parseSign (pyStrip s).data).2).all cdigit then
      some
        (if (parseSign (pyStrip s).data).1 then
          -(natOfChars (stripUS (parseSign (pyStrip s).data).2) : Int)
        else (natOfChars (stripUS (parseSign (pyStrip s).data).2) : Int))
    else none)
  else none

/-! ## Financial script: column normalization (`normalize_columns`) -/

/-- An in-memory table: an ordered list of column names and rows of cells
aligned positionally with the columns. -/
structure DataFrame where
  cols : List String
  rows : List (List Cell)
deriving DecidableEq

/-- The error raised by `normalize_columns` (`ValueError` carrying the
missing required columns and the columns that were present). -/
structure SchemaError where
  missing : List String
  present : List String
deriving DecidableEq

/-- The alias table of the financial script: lowercased/trimmed header
spelling to canonical name. -/
def finAliases : List (String × String) :=
  [("codigo", "code"), ("code", "code"),
   ("descripcion", "description"), ("description", "description"),
   ("valor", "value"), ("value", "value"), ("input_cost", "value"),
   ("importe", "value"), ("monto", "value")]

/-- Rename one raw column name: apply the alias table when the
lowercased/trimmed spelling is a key, else keep the name. -/
def renameCol (c : String) : String :=
  match finAliases.lookup (pyStrip (pyLower c)) with
  | some v => v
  | none => c

/-- The required canonical columns, in order. -/
def finRequired : List String := ["code", "description", "value"]

/-- Column names after alias renaming. -/
def renamedColsOf (df : DataFrame) : List String := df.cols.map renameCol

/-- Required columns still missing after renaming. -/
def missingOf (df : DataFrame) : List String :=
  finRequired.filter (fun c => decide (c ∉ renamedColsOf df))

/-- The positions of every column carrying the (renamed) label `c`, in
original order — pandas label selection returns all of them, so a label
duplicated by alias renaming yields several columns. -/
def colIdxs (cols : List String) (c : String) : List Nat :=
  (List.range cols.length).filter (fun i => cols.getD i ("") == c)

/-- Restrict a row to the columns selected by `df[required]`: for each
required canonical name, every matching column, in order. -/
def projectRow (cols : List String) (row : List Cell) : List Cell :=
  (finRequired.flatMap (colIdxs cols)).map (fun i => row.getD i (Cell.str ""))

/-- The column labels selected by `df[required]`: each required canonical
name repeated once per matching renamed column. -/
def selectedCols (cols : List String) : List String :=
  finRequired.flatMap (fun c => (colIdxs cols c).map (fun _ => c))

/-- `normalize_columns`: rename aliased columns, fail with a `SchemaError`
when a required canonical column is still absent, else restrict to the
columns selected by the required canonical names in their order (several
per name when alias renaming created duplicate labels). -/
def normalize_columns (df : DataFrame) : Except SchemaError DataFrame :=
  if missingOf df = [] then
    Except.ok ⟨selectedCols (renamedColsOf df), df.rows.map (projectRow (renamedColsOf df))⟩
  else
    Except.error ⟨missingOf df, renamedColsOf df⟩

/-! ## Financial script: `build_layer` -/

/-- A normalized financial input row (`code`, `description`, `value`). -/
structure FinRow where
  code : Cell
  description : Cell
  value : Cell
deriving DecidableEq

/-- One output row of either builder (`parent`, `symbol`, `name`,
`input_cost`). -/
structure LayerRow where
  parent : String
  symbol : String
  name : String
  input_cost : Cell
deriving DecidableEq

/-- Lines 90–97 of the financial script applied to the already-trimmed
`code` string: try `int(float(code))` and zero-pad its decimal form to
`pad`; on failure keep the string verbatim. -/
def padCode (code : String) (pad : Nat) : String :=
  match pyIntOfFloatStr code with
  | some n => pyZfill (intDecStr n) pad
  | none => code

/-- The child row the financial builder emits for one input row. -/
def finChildRow (parent : String) (pad : Nat) (r : FinRow) : LayerRow :=
  { parent := parent
    symbol := parent ++ "." ++ padCode (pyStrip (pyStr r.code)) pad
    name := pyStrip (pyStr r.description)
    input_cost := r.value }

/-- The optional leading parent row of the financial builder. -/
def finParentRow (parent : String) (parentName : Option String) : LayerRow :=
  { parent := parent, symbol := parent, name := parentName.getD "", input_cost := Cell.str "" }

/-- `build_layer` of the financial script. -/
def fin_build_layer (rows : List FinRow) (parent : String) (pad : Nat)
    (includeParentRow : Bool) (parentName : Option String) : List LayerRow :=
  (if includeParentRow then [finParentRow parent parentName] else [])
    ++ rows.map (finChildRow parent pad)

/-! ## Personnel script: data model and key derivation -/

/-- A role row as produced by `load_roles`: the `code` and `role` columns
plus the derived join keys (stored columns, so theorems may quantify over
them independently). -/
structure RoleRow where
  code : String
  role : String
  roleKey : String
  codeKey : String
deriving DecidableEq

/-- `load_roles` key derivation on already-stripped `code` and `role`
values: `_role_key` is the lowercased role, `_code_key` is the code with
non-alphanumeric characters removed. -/
def mkRole (code role : String) : RoleRow :=
  { code := pyStrip code
    role := pyStrip role
    roleKey := pyLower (pyStrip role)
    codeKey := stripNonAlnum (pyStrip code) }

/-- An employee row as produced by `load_emps`: `id`, `name`, `cost` plus
the derived join keys. -/
structure EmpRow where
  id : String
  name : String
  cost : Cell
  roleKey : String
  codeKey : String
deriving DecidableEq

/-- `load_emps` key derivation: `_role_key` from the optional text role
(empty when the column is absent), `_code_key` from the optional `cargo`
code (empty when the column is absent). -/
def mkEmp (id name : String) (cost : Cell) (role : Option String)
    (cargo : Option String) : EmpRow :=
  { id := id
    name := name
    cost := cost
    roleKey := pyLower (pyStrip (role.getD ""))
    codeKey := stripNonAlnum (pyStrip (cargo.getD "")) }

/-! ## Personnel script: sorting and `build_layer` -/

/-- `sort_key` of the personnel script: `int(str(x))` when it parses, else
the raw string. -/
def sortKey (s : String) : Int ⊕ String :=
  match pyIntOfStr s with
  | some n => Sum.inl n
  | none => Sum.inr s

/-- Order between sort keys.  Two integer keys compare numerically, two
string keys lexicographically.  (The source raises `TypeError` on a mixed
comparison; the model picks integers-first, and nothing below depends on
it.) -/
def keyLE : Int ⊕ String → Int ⊕ String → Prop
  | Sum.inl m, Sum.inl n => m ≤ n
  | Sum.inr s, Sum.inr t => s ≤ t
  | Sum.inl _, Sum.inr _ => True
  | Sum.inr _, Sum.inl _ => False

instance : DecidableRel keyLE := by
  intro a b
  cases a <;> cases b <;> simp only [keyLE] <;> infer_instance

/-- The role order used by `sort_values(by="code", key=...)`. -/
def roleLE (a b : RoleRow) : Prop := keyLE (sortKey a.code) (sortKey b.code)

instance : DecidableRel roleLE := fun a b =>
  inferInstanceAs (Decidable (keyLE (sortKey a.code) (sortKey b.code)))

theorem keyLE_total (a b : Int ⊕ String) : keyLE a b ∨ keyLE b a := by
  cases a <;> cases b <;> simp only [keyLE]
  · exact Int.le_total _ _
  · exact Or.inl trivial
  · exact Or.inr trivial
  · exact le_total _ _

theorem keyLE_trans (a b c : Int ⊕ String) :
    keyLE a b → keyLE b c → keyLE a c := by
  cases a <;> cases b <;> cases c <;> simp only [keyLE] <;>
    first
      | exact fun h1 h2 => le_trans h1 h2
      | exact fun h1 h2 => trivial
      | exact fun h1 h2 => h1.elim
      | exact fun h1 h2 => h2.elim

instance : IsTotal RoleRow roleLE :=
  ⟨fun a b => keyLE_total (sortKey a.code) (sortKey b.code)⟩

instance : IsTrans RoleRow roleLE :=
  ⟨fun a b c => keyLE_trans (sortKey a.code) (sortKey b.code) (sortKey c.code)⟩

/-- Whether any employee row carries a non-empty `_code_key`
(`emp_has_code`): the global join-strategy switch. -/
def empsHaveCode (emps : List EmpRow) : Bool :=
  emps.any (fun e => !(e.codeKey == ""))

/-- Whether employee `e` matches role `r` under the chosen strategy:
code-key equality when `byCode`, role-key equality otherwise. -/
def matchesB (byCode : Bool) (r : RoleRow) (e : EmpRow) : Bool :=
  if byCode then e.codeKey == r.codeKey else e.roleKey == r.roleKey

/-- The employees selected for role `r`, in their original order. -/
def matchingEmps (byCode : Bool) (emps : List EmpRow) (r : RoleRow) : List EmpRow :=
  emps.filter (matchesB byCode r)

/-- The header row the personnel builder emits for a role. -/
def hdrOut (pc : String) (r : RoleRow) : LayerRow :=
  { parent := pc, symbol := pc ++ "." ++ r.code, name := r.role, input_cost := Cell.str "" }

/-- The child row the personnel builder emits for employee `e` under role
`r`. -/
def empOut (pc : String) (r : RoleRow) (e : EmpRow) : LayerRow :=
  { parent := pc ++ "." ++ r.code
    symbol := pc ++ "." ++ r.code ++ "." ++ pyStrip e.id
    name := pyStrip e.name
    input_cost := e.cost }

/-- The loop body of the personnel builder for one role. -/
def personGroup (pc : String) (byCode : Bool) (emps : List EmpRow) (r : RoleRow) :
    List LayerRow :=
  hdrOut pc r :: (matchingEmps byCode emps r).map (empOut pc r)

/-- `build_layer` of the personnel script: decide the join strategy once,
sort the roles by code, then emit one header per role followed by its
matching employees. -/
def per_build_layer (roles : List RoleRow) (emps : List EmpRow)
    (pc : String) : List LayerRow :=
  (List.insertionSort roleLE roles).flatMap
    (personGroup pc (empsHaveCode emps) emps)

deriving instance DecidableEq for Except

/-! ## String helper lemmas -/

theorem str_data_mk (l : List Char) : (String.mk l).data = l := rfl

theorem str_eq_iff {a b : String} : a = b ↔ a.data = b.data :=
  ⟨congrArg _, String.ext⟩

/-- The character data of `a ++ "." ++ b`. -/
theorem dot_append_data (a b : String) :
    (a ++ (".") ++ b).data = a.data ++ '.' :: b.data := by
  rw [String.data_append, String.data_append]
  simp [str_data_mk]

theorem dot_append_length (a b : String) :
    (a ++ (".") ++ b).length = a.length + 1 + b.length := by
  simp [String.length_append]
  rfl

/-- A symbol is never equal to its own parent prefix. -/
theorem base_ne_dot_append (a b : String) : a ≠ a ++ (".") ++ b := by
  intro h
  have := congrArg String.length h
  rw [dot_append_length] at this
  omega

/-- Left cancellation for dotted symbol concatenation. -/
theorem dot_append_left_cancel {a x y : String} :
    a ++ (".") ++ x = a ++ (".") ++ y → x = y := by
  intro h
  rw [str_eq_iff, dot_append_data, dot_append_data] at h
  have h2 := List.append_cancel_left h
  exact String.ext (List.cons.inj h2).2

theorem dot_append_right_inj {a x y : String} (h : x ≠ y) :
    a ++ (".") ++ x ≠ a ++ (".") ++ y :=
  fun hc => h (dot_append_left_cancel hc)

/-- Splitting at the first dot: if neither `u` nor `v` contains a dot, a
dotted concatenation determines both halves. -/
theorem append_dot_inj {u v x y : List Char} (hu : ('.') ∉ u) (hv : ('.') ∉ v)
    (h : u ++ '.' :: x = v ++ '.' :: y) : u = v ∧ x = y := by
  induction u generalizing v with
  | nil =>
    cases v with
    | nil => exact ⟨rfl, (List.cons.inj h).2⟩
    | cons d v2 =>
      exfalso
      have hd : '.' = d := (List.cons.inj h).1
      exact hv (hd ▸ List.mem_cons_self d v2)
  | cons c u2 ih =>
    cases v with
    | nil =>
      exfalso
      have hc : c = '.' := (List.cons.inj h).1
      exact hu (hc ▸ List.mem_cons_self c u2)
    | cons d v2 =>
      have hc : c = d := (List.cons.inj h).1
      have h2 := (List.cons.inj h).2
      have hu2 : ('.') ∉ u2 := fun hm => hu (List.mem_cons_of_mem c hm)
      have hv2 : ('.') ∉ v2 := fun hm => hv (List.mem_cons_of_mem d hm)
      obtain ⟨he, hxy⟩ := ih hu2 hv2 h2
      exact ⟨by rw [hc, he], hxy⟩

/-- String version: comparing `a ++ "." ++ x` with `b ++ "." ++ y` for
dot-free `a`, `b`. -/
theorem dot_append_split {a b x y : String} (ha : ('.') ∉ a.data) (hb : ('.') ∉ b.data)
    (h : a ++ (".") ++ x = b ++ (".") ++ y) : a = b ∧ x = y := by
  rw [str_eq_iff, dot_append_data, dot_append_data] at h
  obtain ⟨h1, h2⟩ := append_dot_inj ha hb h
  exact ⟨String.ext h1, String.ext h2⟩

/-- A dot-free string never equals a dotted concatenation. -/
theorem dotfree_ne_dot_append {a b y : String} (ha : ('.') ∉ a.data) :
    a ≠ b ++ (".") ++ y := by
  intro h
  rw [str_eq_iff, dot_append_data] at h
  exact ha (h ▸ List.mem_append_right b.data (List.mem_cons_self _ _))

theorem dot_append_assoc (a b c : String) :
    a ++ (".") ++ b ++ (".") ++ c = a ++ (".") ++ (b ++ (".") ++ c) := by
  rw [str_eq_iff]
  rw [dot_append_data, dot_append_data, dot_append_data, dot_append_data]
  simp

/-! ## Decimal digit lemmas -/

theorem digitVal_lt {c : Char} (h : cdigit c = true) : digitVal c < 10 := by
  simp only [cdigit, Bool.and_eq_true, decide_eq_true_eq] at h
  unfold digitVal
  omega

theorem char_eq_of_toNat {c : Char} {n : Nat} (h : c.toNat = n) : c = Char.ofNat n := by
  rw [← h, Char.ofNat_toNat]

theorem digitChar_digitVal {c : Char} (h : cdigit c = true) :
    Nat.digitChar (digitVal c) = c := by
  simp only [cdigit, Bool.and_eq_true, decide_eq_true_eq] at h
  obtain ⟨k, hk, hlt⟩ : ∃ k, c.toNat = 48 + k ∧ k < 10 := ⟨c.toNat - 48, by omega, by omega⟩
  have hdv : digitVal c = k := by unfold digitVal; omega
  rw [hdv, char_eq_of_toNat hk]
  interval_cases k <;> rfl

theorem digitVal_eq_zero {c : Char} (h : cdigit c = true) (h0 : digitVal c = 0) : c = '0' := by
  have := digitChar_digitVal h
  rw [h0] at this
  exact this.symm

theorem digitChar_ne_dot {v : Nat} (h : v < 10) : Nat.digitChar v ≠ '.' := by
  interval_cases v <;> decide

theorem natOfChars_nil : natOfChars [] = 0 := rfl

theorem natOfChars_foldl_acc (l : List Char) (a : Nat) :
    l.foldl (fun x c => 10 * x + digitVal c) a = a * 10 ^ l.length + natOfChars l := by
  induction l generalizing a with
  | nil => simp [natOfChars]
  | cons c l2 ih =>
    have h2 : natOfChars (c :: l2) = digitVal c * 10 ^ l2.length + natOfChars l2 := by
      show List.foldl (fun x c => 10 * x + digitVal c) (10 * 0 + digitVal c) l2 = _
      rw [ih (10 * 0 + digitVal c)]
      norm_num
    rw [List.foldl_cons, ih (10 * a + digitVal c), h2, List.length_cons]
    ring

theorem natOfChars_cons (c : Char) (l : List Char) :
    natOfChars (c :: l) = digitVal c * 10 ^ l.length + natOfChars l := by
  show List.foldl (fun x c => 10 * x + digitVal c) (10 * 0 + digitVal c) l = _
  rw [natOfChars_foldl_acc l (10 * 0 + digitVal c)]
  norm_num

theorem natOfChars_append (x y : List Char) :
    natOfChars (x ++ y) = natOfChars x * 10 ^ y.length + natOfChars y := by
  unfold natOfChars
  rw [List.foldl_append]
  exact natOfChars_foldl_acc y (List.foldl (fun x c => 10 * x + digitVal c) 0 x)

theorem natOfChars_lt {l : List Char} (h : ∀ c ∈ l, cdigit c = true) :
    natOfChars l < 10 ^ l.length := by
  induction l with
  | nil => simp [natOfChars]
  | cons c l2 ih =>
    have h1 : digitVal c < 10 := digitVal_lt (h c (List.mem_cons_self c l2))
    have h2 : natOfChars l2 < 10 ^ l2.length := ih (fun d hd => h d (List.mem_cons_of_mem c hd))
    rw [natOfChars_cons, List.length_cons, pow_succ]
    nlinarith

theorem natOfChars_eq_ofDigits (l : List Char) :
    natOfChars l = Nat.ofDigits 10 ((l.map digitVal).reverse) := by
  induction l with
  | nil => simp [natOfChars, Nat.ofDigits_nil]
  | cons c l2 ih =>
    rw [natOfChars_cons, List.map_cons, List.reverse_cons, Nat.ofDigits_append, ih]
    simp [Nat.ofDigits_cons, Nat.ofDigits_nil]
    ring

theorem natDigitsAux_eq : ∀ fuel n, n ≤ fuel →
    natDigitsAux fuel n = (Nat.digits 10 n).map Nat.digitChar := by
  intro fuel
  induction fuel with
  | zero =>
    intro n hn
    have : n = 0 := Nat.le_zero.mp hn
    subst this
    simp [natDigitsAux]
  | succ f ih =>
    intro n hn
    cases n with
    | zero => simp [natDigitsAux]
    | succ m =>
      have hdiv : (m + 1) / 10 ≤ f := by
        have : (m + 1) / 10 < m + 1 := Nat.div_lt_self (Nat.succ_pos m) (by norm_num)
        omega
      rw [show natDigitsAux (f + 1) (m + 1)
            = Nat.digitChar ((m + 1) % 10) :: natDigitsAux f ((m + 1) / 10) from rfl,
          ih _ hdiv, Nat.digits_def' (by norm_num : (1 : Nat) < 10) (Nat.succ_pos m),
          List.map_cons]

theorem natDecRepr_zero : natDecRepr 0 = ['0'] := rfl

theorem natDecRepr_pos {n : Nat} (h : n ≠ 0) :
    natDecRepr n = ((Nat.digits 10 n).map Nat.digitChar).reverse := by
  unfold natDecRepr
  rw [if_neg h, natDigitsAux_eq n n (le_refl n)]

theorem natDecRepr_roundtrip {l : List Char} (hne : l ≠ [])
    (hd : ∀ c ∈ l, cdigit c = true) (h0 : l.head hne ≠ '0') :
    natDecRepr (natOfChars l) = l := by
  obtain ⟨c, l2, rfl⟩ := List.exists_cons_of_ne_nil hne
  have hc : cdigit c = true := hd c (List.mem_cons_self c l2)
  have hcv : digitVal c ≠ 0 := fun hz => h0 (by simpa using digitVal_eq_zero hc hz)
  have hpos : natOfChars (c :: l2) ≠ 0 := by
    rw [natOfChars_cons]
    have h1 : 1 ≤ digitVal c := Nat.one_le_iff_ne_zero.mpr hcv
    have h2 : 1 ≤ 10 ^ l2.length := Nat.one_le_pow _ _ (by norm_num)
    have h3 := Nat.mul_le_mul h1 h2
    omega
  have hofd2 : natOfChars (c :: l2)
      = Nat.ofDigits 10 ((List.map digitVal l2).reverse ++ [digitVal c]) := by
    rw [natOfChars_eq_ofDigits, List.map_cons, List.reverse_cons]
  have hdig : Nat.digits 10 (natOfChars (c :: l2))
      = (List.map digitVal l2).reverse ++ [digitVal c] := by
    rw [hofd2]
    apply Nat.digits_ofDigits 10 (by norm_num)
    · intro v hv
      rcases List.mem_append.mp hv with hv1 | hv2
      · rw [List.mem_reverse, List.mem_map] at hv1
        obtain ⟨d, hdm, rfl⟩ := hv1
        exact digitVal_lt (hd d (List.mem_cons_of_mem c hdm))
      · rw [List.mem_singleton] at hv2
        subst hv2
        exact digitVal_lt hc
    · intro hln
      rw [List.getLast_concat]
      exact hcv
  have hdig2 : Nat.digits 10 (natOfChars (c :: l2))
      = (List.map digitVal (c :: l2)).reverse := by
    rw [hdig, List.map_cons, List.reverse_cons]
  rw [natDecRepr_pos hpos, hdig2, List.map_reverse, List.reverse_reverse, List.map_map]
  have hid : ∀ d ∈ c :: l2, (Nat.digitChar ∘ digitVal) d = id d := by
    intro d hdm
    simp [digitChar_digitVal (hd d hdm)]
  rw [List.map_congr_left hid, List.map_id]

theorem natDecRepr_length_le {n k : Nat} (h : n < 10 ^ k) (hk : 1 ≤ k) :
    (natDecRepr n).length ≤ k := by
  by_cases hn : n = 0
  · subst hn
    simpa [natDecRepr_zero] using hk
  · rw [natDecRepr_pos hn, List.length_reverse, List.length_map,
      Nat.digits_len 10 n (by norm_num) hn]
    have := (Nat.lt_pow_iff_log_lt (by norm_num : (1 : Nat) < 10) hn).mp h
    omega

theorem natDecRepr_chars {n : Nat} {c : Char} (h : c ∈ natDecRepr n) :
    ∃ v < 10, c = Nat.digitChar v := by
  by_cases hn : n = 0
  · subst hn
    rw [natDecRepr_zero, List.mem_singleton] at h
    exact ⟨0, by norm_num, h⟩
  · rw [natDecRepr_pos hn, List.mem_reverse, List.mem_map] at h
    obtain ⟨v, hv, rfl⟩ := h
    exact ⟨v, Nat.digits_lt_base (by norm_num) hv, rfl⟩

theorem intDecStr_ofNat (m : Nat) : intDecStr (m : Int) = String.mk (natDecRepr m) := by
  unfold intDecStr
  rw [if_neg (by exact_mod_cast Int.not_lt.mpr (Int.ofNat_nonneg m))]
  simp

theorem intDecStr_no_dot (i : Int) : ('.') ∉ (intDecStr i).data := by
  unfold intDecStr
  by_cases h : i < 0
  · rw [if_pos h]
    intro hm
    rcases List.mem_cons.mp hm with h1 | h2
    · exact absurd h1.symm (by decide)
    · obtain ⟨v, hv, he⟩ := natDecRepr_chars h2
      exact digitChar_ne_dot hv he.symm
  · rw [if_neg h]
    intro hm
    obtain ⟨v, hv, he⟩ := natDecRepr_chars hm
    exact digitChar_ne_dot hv he.symm

/-! ## `pyZfill` lemmas -/

theorem pyZfill_of_width_le {s : String} {w : Nat} (h : w ≤ s.length) :
    pyZfill s w = s := by
  unfold pyZfill
  rw [if_pos h]

theorem pyZfill_length (s : String) (w : Nat) : (pyZfill s w).length = max w s.length := by
  have hs : s.length = s.data.length := rfl
  unfold pyZfill
  split
  · rename_i h
    omega
  · rename_i h
    split
    · rename_i hd
      show (List.replicate w '0').length = max w s.length
      rw [List.length_replicate, hs, hd]
      simp
    · rename_i c rest hd
      have hlen : s.length = rest.length + 1 := by rw [hs, hd, List.length_cons]
      split
      · rename_i hsign
        show (c :: (List.replicate (w - s.length) '0' ++ rest)).length = max w s.length
        rw [List.length_cons, List.length_append, List.length_replicate]
        omega
      · rename_i hsign
        show (List.replicate (w - s.length) '0' ++ (c :: rest)).length = max w s.length
        rw [List.length_append, List.length_replicate, List.length_cons]
        omega

theorem pyZfill_no_dot {s : String} (hs : ('.') ∉ s.data) (w : Nat) :
    ('.') ∉ (pyZfill s w).data := by
  unfold pyZfill
  split
  · exact hs
  · rename_i h
    split
    · rename_i hd
      intro hm
      rw [str_data_mk, List.mem_replicate] at hm
      exact absurd hm.2.symm (by decide)
    · rename_i c rest hd
      rw [hd] at hs
      split
      · rename_i hsign
        intro hm
        rw [str_data_mk] at hm
        rcases List.mem_cons.mp hm with h1 | h2
        · exact hs (h1 ▸ List.mem_cons_self c rest)
        · rcases List.mem_append.mp h2 with h3 | h4
          · rw [List.mem_replicate] at h3
            exact absurd h3.2.symm (by decide)
          · exact hs (List.mem_cons_of_mem c h4)
      · rename_i hsign
        intro hm
        rw [str_data_mk] at hm
        rcases List.mem_append.mp hm with h3 | h4
        · rw [List.mem_replicate] at h3
          exact absurd h3.2.symm (by decide)
        · exact hs h4

/-! ## Parser lemmas -/

theorem parseSign_digit {c : Char} {cs : List Char} (h : cdigit c = true) :
    parseSign (c :: cs) = (false, c :: cs) := by
  have h1 : c ≠ '+' := by
    rintro rfl
    exact absurd h (by decide)
  have h2 : c ≠ '-' := by
    rintro rfl
    exact absurd h (by decide)
  show (if c = '+' then (false, cs)
    else if c = '-' then (true, cs) else (false, c :: cs)) = (false, c :: cs)
  rw [if_neg h1, if_neg h2]

theorem takeWhile_of_all {p : Char → Bool} {l : List Char} (h : ∀ c ∈ l, p c = true) :
    l.takeWhile p = l := by
  induction l with
  | nil => rfl
  | cons c l2 ih =>
    rw [List.takeWhile_cons, if_pos (h c (List.mem_cons_self c l2))]
    rw [ih (fun d hd => h d (List.mem_cons_of_mem c hd))]

theorem dropWhile_of_all {p : Char → Bool} {l : List Char} (h : ∀ c ∈ l, p c = true) :
    l.dropWhile p = [] := by
  induction l with
  | nil => rfl
  | cons c l2 ih =>
    rw [List.dropWhile_cons_of_pos (h c (List.mem_cons_self c l2))]
    exact ih (fun d hd => h d (List.mem_cons_of_mem c hd))

theorem takeWhile_middle {p : Char → Bool} {l r : List Char} {x : Char}
    (hl : ∀ c ∈ l, p c = true) (hx : p x = false) :
    (l ++ x :: r).takeWhile p = l := by
  induction l with
  | nil => simpa [List.takeWhile_cons] using hx
  | cons c l2 ih =>
    rw [List.cons_append, List.takeWhile_cons, if_pos (hl c (List.mem_cons_self c l2))]
    rw [ih (fun d hd => hl d (List.mem_cons_of_mem c hd))]

theorem dropWhile_middle {p : Char → Bool} {l r : List Char} {x : Char}
    (hl : ∀ c ∈ l, p c = true) (hx : p x = false) :
    (l ++ x :: r).dropWhile p = x :: r := by
  induction l with
  | nil =>
    rw [List.nil_append]
    exact List.dropWhile_cons_of_neg (by simp [hx])
  | cons c l2 ih =>
    rw [List.cons_append, List.dropWhile_cons_of_pos (hl c (List.mem_cons_self c l2))]
    exact ih (fun d hd => hl d (List.mem_cons_of_mem c hd))

theorem parseFloatAfterSign_digits {d : List Char} (hne : d ≠ [])
    (hd : ∀ c ∈ d, cdigit c = true) (neg : Bool) :
    parseFloatAfterSign neg d = some (neg, d, [], 0) := by
  have hdrop : d.dropWhile cdigit = [] := dropWhile_of_all hd
  have htake : d.takeWhile cdigit = d := takeWhile_of_all hd
  unfold parseFloatAfterSign
  split
  · rw [htake, if_neg hne]
  · rename_i c cs2 heq
    rw [hdrop] at heq
    exact absurd heq (by simp)

theorem parseFloatAfterSign_decimal {a b : List Char} (ha : a ≠ [])
    (hda : ∀ c ∈ a, cdigit c = true) (hdb : ∀ c ∈ b, cdigit c = true) (neg : Bool) :
    parseFloatAfterSign neg (a ++ '.' :: b) = some (neg, a, b, 0) := by
  have hdot : cdigit '.' = false := by decide
  have hdrop : (a ++ '.' :: b).dropWhile cdigit = '.' :: b := dropWhile_middle hda hdot
  have htake : (a ++ '.' :: b).takeWhile cdigit = a := takeWhile_middle hda hdot
  have hbdrop : b.dropWhile cdigit = [] := dropWhile_of_all hdb
  have hbtake : b.takeWhile cdigit = b := takeWhile_of_all hdb
  unfold parseFloatAfterSign
  split
  · rename_i heq
    rw [hdrop] at heq
    exact absurd heq (by simp)
  · rename_i c cs2 heq
    rw [hdrop] at heq
    obtain ⟨rfl, rfl⟩ : c = '.' ∧ cs2 = b := ⟨(List.cons.inj heq.symm).1, (List.cons.inj heq.symm).2⟩
    rw [if_pos rfl, htake, hbtake, if_neg (by intro hand; exact ha hand.1)]
    split
    · rfl
    · rename_i e cs3 heq2
      rw [hbdrop] at heq2
      exact absurd heq2 (by simp)

theorem parseFloatCore_digitHead {c : Char} {cs : List Char} (h : cdigit c = true) :
    parseFloatCore (c :: cs) = parseFloatAfterSign false (c :: cs) := by
  unfold parseFloatCore
  rw [parseSign_digit h]

theorem roundNE_exact {a b : Nat} (hb : 0 < b) (h : b ∣ a) : roundNE a b = a / b := by
  unfold roundNE
  have hr : a % b = 0 := Nat.dvd_iff_mod_eq_zero.mp h
  rw [hr]
  simp [hb]

theorem natLog2Aux_spec : ∀ fuel n, 1 ≤ n → n ≤ fuel →
    2 ^ natLog2Aux fuel n ≤ n ∧ n < 2 ^ (natLog2Aux fuel n + 1) := by
  intro fuel
  induction fuel with
  | zero =>
    intro n h1 h2
    omega
  | succ f ih =>
    intro n h1 h2
    show 2 ^ (if 2 ≤ n then natLog2Aux f (n / 2) + 1 else 0) ≤ n
      ∧ n < 2 ^ ((if 2 ≤ n then natLog2Aux f (n / 2) + 1 else 0) + 1)
    by_cases h : 2 ≤ n
    · rw [if_pos h]
      have hdiv : n / 2 ≤ f := by omega
      have h1d : 1 ≤ n / 2 := by omega
      obtain ⟨ha, hb2⟩ := ih (n / 2) h1d hdiv
      have e1 : 2 ^ (natLog2Aux f (n / 2) + 1) = 2 ^ natLog2Aux f (n / 2) * 2 := pow_succ 2 _
      have e2 : 2 ^ (natLog2Aux f (n / 2) + 1 + 1) = 2 ^ (natLog2Aux f (n / 2) + 1) * 2 :=
        pow_succ 2 _
      omega
    · rw [if_neg h]
      simp only [pow_zero, pow_one]
      omega

theorem natLog2_spec {n : Nat} (h : 1 ≤ n) :
    2 ^ natLog2 n ≤ n ∧ n < 2 ^ (natLog2 n + 1) :=
  natLog2Aux_spec n n h (le_refl n)

theorem ilog2_spec_ge {num den : Nat} (hden : 0 < den) (hge : den ≤ num) :
    0 ≤ ilog2 num den
  ∧ den * 2 ^ (ilog2 num den).toNat ≤ num
  ∧ num < den * 2 ^ ((ilog2 num den).toNat + 1) := by
  have hnum : 0 < num := lt_of_lt_of_le hden hge
  obtain ⟨hn1, hn2⟩ := natLog2_spec hnum
  obtain ⟨hd1, hd2⟩ := natLog2_spec hden
  have hle : natLog2 den ≤ natLog2 num := by
    by_contra hcon
    push_neg at hcon
    have h3 : natLog2 num + 1 ≤ natLog2 den := hcon
    have h4 : (2 : Nat) ^ (natLog2 num + 1) ≤ 2 ^ natLog2 den :=
      Nat.pow_le_pow_right (by norm_num) h3
    omega
  have hc0 : (0 : Int) ≤ (natLog2 num : Int) - (natLog2 den : Int) := by omega
  have htn : ((natLog2 num : Int) - (natLog2 den : Int)).toNat
      = natLog2 num - natLog2 den := by omega
  unfold ilog2
  rw [if_pos hc0, htn]
  by_cases ht : den * 2 ^ (natLog2 num - natLog2 den) ≤ num
  · rw [if_pos ht, htn]
    refine ⟨hc0, ht, ?_⟩
    have he : natLog2 den + (natLog2 num - natLog2 den + 1) = natLog2 num + 1 := by omega
    have h5 : (2 : Nat) ^ (natLog2 num + 1)
        = 2 ^ natLog2 den * 2 ^ (natLog2 num - natLog2 den + 1) := by
      rw [← Nat.pow_add, he]
    have h6 : (2 : Nat) ^ natLog2 den * 2 ^ (natLog2 num - natLog2 den + 1)
        ≤ den * 2 ^ (natLog2 num - natLog2 den + 1) :=
      Nat.mul_le_mul_right _ hd1
    omega
  · rw [if_neg ht]
    have hgt : natLog2 den < natLog2 num := by
      by_contra hcon
      push_neg at hcon
      have : natLog2 num = natLog2 den := le_antisymm hcon hle
      rw [this, Nat.sub_self, pow_zero, Nat.mul_one] at ht
      exact ht hge
    have htn2 : ((natLog2 num : Int) - (natLog2 den : Int) - 1).toNat
        = natLog2 num - natLog2 den - 1 := by omega
    rw [htn2]
    refine ⟨by omega, ?_, ?_⟩
    · have he : natLog2 den + 1 + (natLog2 num - natLog2 den - 1) = natLog2 num := by omega
      have h5 : (2 : Nat) ^ natLog2 num
          = 2 ^ (natLog2 den + 1) * 2 ^ (natLog2 num - natLog2 den - 1) := by
        rw [← Nat.pow_add, he]
      have h6 : den * 2 ^ (natLog2 num - natLog2 den - 1)
          ≤ 2 ^ (natLog2 den + 1) * 2 ^ (natLog2 num - natLog2 den - 1) :=
        Nat.mul_le_mul_right _ (le_of_lt hd2)
      omega
    · have he : natLog2 num - natLog2 den - 1 + 1 = natLog2 num - natLog2 den := by omega
      rw [he]
      exact lt_of_not_ge ht

theorem floatRoundInt_exact {num den : Nat} (hden : 0 < den) (hdvd : den ∣ num)
    (hlt : num / den < 2 ^ 53) : floatRoundInt num den = some (num / den) := by
  by_cases h0 : num = 0
  · subst h0
    rw [Nat.zero_div]
    rfl
  · have hnum : 0 < num := Nat.pos_of_ne_zero h0
    have hV : 0 < num / den := Nat.div_pos (Nat.le_of_dvd hnum hdvd) hden
    have hnd : num = num / den * den := (Nat.div_mul_cancel hdvd).symm
    have hge : den ≤ num := Nat.le_of_dvd hnum hdvd
    obtain ⟨hk0, hlow, hup⟩ := ilog2_spec_ge hden hge
    have hdVn : den * (num / den) = num := by
      rw [Nat.mul_comm]
      exact hnd.symm
    have hVlow : 2 ^ (ilog2 num den).toNat ≤ num / den := by
      have h2 : den * 2 ^ (ilog2 num den).toNat ≤ den * (num / den) := by
        rw [hdVn]
        exact hlow
      exact Nat.le_of_mul_le_mul_left h2 hden
    have hVup : num / den < 2 ^ ((ilog2 num den).toNat + 1) := by
      have h2 : den * (num / den) < den * 2 ^ ((ilog2 num den).toNat + 1) := by
        rw [hdVn]
        exact hup
      exact Nat.lt_of_mul_lt_mul_left h2
    have hk53 : (ilog2 num den).toNat ≤ 52 := by
      have h2 : (2 : Nat) ^ (ilog2 num den).toNat < 2 ^ 53 := lt_of_le_of_lt hVlow hlt
      have := (Nat.pow_lt_pow_iff_right (a := 2) (by norm_num)).mp h2
      omega
    unfold floatRoundInt
    rw [if_neg h0]
    by_cases hk : (ilog2 num den).toNat = 52
    · have hs0 : ilog2 num den - 52 = 0 := by omega
      rw [hs0]
      have hm : roundNE num (den * 2 ^ ((0 : Int)).toNat) = num / den := by
        rw [show ((0 : Int)).toNat = 0 from rfl, pow_zero, Nat.mul_one]
        exact roundNE_exact hden hdvd
      rw [if_pos (le_refl (0 : Int)), hm]
      have hne53 : num / den ≠ 2 ^ 53 := by omega
      unfold floatFinish
      rw [if_neg hne53]
      unfold floatOut
      rw [if_neg (by omega)]
      rw [if_pos (le_refl (0 : Int))]
      rw [show ((0 : Int)).toNat = 0 from rfl, pow_zero, Nat.mul_one]
    · have hklt : (ilog2 num den).toNat < 52 := by omega
      have hsneg : ¬ (0 : Int) ≤ ilog2 num den - 52 := by omega
      have htn : (-(ilog2 num den - 52)).toNat = 52 - (ilog2 num den).toNat := by omega
      rw [if_neg hsneg, htn]
      have hdvd2 : den ∣ num * 2 ^ (52 - (ilog2 num den).toNat) := hdvd.mul_right _
      have hm : roundNE (num * 2 ^ (52 - (ilog2 num den).toNat)) den
          = num / den * 2 ^ (52 - (ilog2 num den).toNat) := by
        rw [roundNE_exact hden hdvd2]
        rw [Nat.mul_comm num _, Nat.mul_div_assoc _ hdvd, Nat.mul_comm]
      rw [hm]
      have hmlt : num / den * 2 ^ (52 - (ilog2 num den).toNat) < 2 ^ 53 := by
        have h2 : num / den * 2 ^ (52 - (ilog2 num den).toNat)
            < 2 ^ ((ilog2 num den).toNat + 1) * 2 ^ (52 - (ilog2 num den).toNat) :=
          (Nat.mul_lt_mul_right (Nat.pos_pow_of_pos _ (by norm_num))).mpr hVup
        have he : (ilog2 num den).toNat + 1 + (52 - (ilog2 num den).toNat) = 53 := by omega
        rw [← Nat.pow_add, he] at h2
        exact h2
      unfold floatFinish
      rw [if_neg (by omega)]
      unfold floatOut
      rw [if_neg (by omega), if_neg hsneg, htn]
      rw [Nat.mul_div_cancel _ (Nat.pos_pow_of_pos _ (by norm_num))]

theorem cdigit_ne_us {c : Char} (h : cdigit c = true) : c ≠ '_' := by
  rintro rfl
  exact absurd h (by decide)

theorem usOKAux_no_us {l : List Char} (h : ∀ c ∈ l, c ≠ '_') :
    ∀ prev, usOKAux prev l = true := by
  induction l with
  | nil => intro prev; rfl
  | cons c rest ih =>
    intro prev
    show (if c = '_' then _ else usOKAux (some c) rest) = true
    rw [if_neg (h c (List.mem_cons_self c rest))]
    exact ih (fun d hd => h d (List.mem_cons_of_mem c hd)) (some c)

theorem stripUS_no_us {l : List Char} (h : ∀ c ∈ l, c ≠ '_') : stripUS l = l := by
  unfold stripUS
  rw [List.filter_eq_self]
  intro c hc
  simpa using h c hc

theorem natOfChars_zeros {b : List Char} (h : ∀ c ∈ b, c = '0') : natOfChars b = 0 := by
  induction b with
  | nil => rfl
  | cons c rest ih =>
    rw [natOfChars_cons, h c (List.mem_cons_self c rest)]
    rw [ih (fun d hd => h d (List.mem_cons_of_mem c hd))]
    rw [show digitVal '0' = 0 from rfl]
    ring

theorem pyIntOfFloatStr_digits {d : List Char} (hne : d ≠ [])
    (hd : ∀ c ∈ d, cdigit c = true) (hbound : natOfChars d < 2 ^ 53) :
    pyIntOfFloatStr (String.mk d) = some ((natOfChars d : Int)) := by
  obtain ⟨c, cs, rfl⟩ := List.exists_cons_of_ne_nil hne
  have hnous : ∀ x ∈ c :: cs, x ≠ '_' := fun x hx => cdigit_ne_us (hd x hx)
  unfold pyIntOfFloatStr
  rw [str_data_mk,
    if_pos (show usOK (c :: cs) = true from usOKAux_no_us hnous none),
    stripUS_no_us hnous,
    parseFloatCore_digitHead (hd c (List.mem_cons_self c cs)),
    parseFloatAfterSign_digits hne hd false]
  show pyFloatTrunc false (c :: cs) [] 0 = _
  unfold pyFloatTrunc
  simp only [List.length_nil, Nat.cast_zero, sub_zero, List.append_nil]
  norm_num [floatValNum, floatValDen]
  rw [floatRoundInt_exact (by norm_num) (one_dvd _) (by simpa using hbound)]
  simp

theorem pyIntOfFloatStr_decimal0 {a b : List Char} (ha : a ≠ [])
    (hda : ∀ c ∈ a, cdigit c = true) (hb0 : ∀ c ∈ b, c = '0')
    (hbound : natOfChars a < 2 ^ 53) :
    pyIntOfFloatStr (String.mk (a ++ '.' :: b)) = some ((natOfChars a : Int)) := by
  have hdb : ∀ c ∈ b, cdigit c = true := by
    intro c hc
    rw [hb0 c hc]
    decide
  obtain ⟨c, cs, rfl⟩ := List.exists_cons_of_ne_nil ha
  have hnous : ∀ x ∈ (c :: cs) ++ '.' :: b, x ≠ '_' := by
    intro x hx
    rcases List.mem_append.mp hx with h1 | h2
    · exact cdigit_ne_us (hda x h1)
    · rcases List.mem_cons.mp h2 with rfl | h3
      · decide
      · rw [hb0 x h3]
        decide
  unfold pyIntOfFloatStr
  rw [str_data_mk,
    if_pos (show usOK ((c :: cs) ++ '.' :: b) = true from usOKAux_no_us hnous none),
    stripUS_no_us hnous,
    List.cons_append, parseFloatCore_digitHead (hda c (List.mem_cons_self c cs)),
    ← List.cons_append, parseFloatAfterSign_decimal ha hda hdb false]
  show pyFloatTrunc false (c :: cs) b 0 = _
  unfold pyFloatTrunc
  have hN : natOfChars ((c :: cs) ++ b) = natOfChars (c :: cs) * 10 ^ b.length := by
    rw [natOfChars_append, natOfChars_zeros hb0, Nat.add_zero]
  by_cases hb : b = []
  · subst hb
    simp only [List.length_nil, Nat.cast_zero, sub_zero, List.append_nil]
    norm_num [floatValNum, floatValDen]
    rw [floatRoundInt_exact (by norm_num) (one_dvd _) (by simpa using hbound)]
    simp
  · have hbl : 0 < b.length := List.length_pos.mpr hb
    have hsneg : ¬ (0 : Int) ≤ 0 - (b.length : Int) := by omega
    have hnum : floatValNum (natOfChars ((c :: cs) ++ b)) ((0 : Int) - b.length)
        = natOfChars (c :: cs) * 10 ^ b.length := by
      unfold floatValNum
      rw [if_neg hsneg, hN]
    have hdenv : floatValDen ((0 : Int) - b.length) = 10 ^ b.length := by
      unfold floatValDen
      rw [if_neg hsneg]
      congr 1
      omega
    rw [hnum, hdenv]
    have hdpos : 0 < 10 ^ b.length := Nat.pos_pow_of_pos _ (by norm_num)
    have hdvd : 10 ^ b.length ∣ natOfChars (c :: cs) * 10 ^ b.length :=
      Dvd.intro_left _ rfl
    have hq : natOfChars (c :: cs) * 10 ^ b.length / 10 ^ b.length = natOfChars (c :: cs) :=
      Nat.mul_div_cancel _ hdpos
    rw [floatRoundInt_exact hdpos hdvd (by rw [hq]; exact hbound)]
    rw [hq]
    simp

/-! ## `padCode` lemmas -/

theorem padCode_some {code : String} (pad : Nat) {n : Int}
    (h : pyIntOfFloatStr code = some n) : padCode code pad = pyZfill (intDecStr n) pad := by
  unfold padCode
  rw [h]

theorem padCode_none {code : String} (pad : Nat)
    (h : pyIntOfFloatStr code = none) : padCode code pad = code := by
  unfold padCode
  rw [h]

theorem natOfChars_lt_of_short {d : List Char} (hd : ∀ c ∈ d, cdigit c = true)
    (hlen : d.length ≤ 15) : natOfChars d < 2 ^ 53 := by
  have h1 : natOfChars d < 10 ^ d.length := natOfChars_lt hd
  have h2 : (10 : Nat) ^ d.length ≤ 10 ^ 15 := Nat.pow_le_pow_right (by norm_num) hlen
  have h3 : (10 : Nat) ^ 15 < 2 ^ 53 := by norm_num
  omega

theorem padCode_digits {d : List Char} (hne : d ≠ [])
    (hd : ∀ c ∈ d, cdigit c = true) (hbound : natOfChars d < 2 ^ 53) (pad : Nat) :
    padCode (String.mk d) pad = pyZfill (String.mk (natDecRepr (natOfChars d))) pad := by
  rw [padCode_some pad (pyIntOfFloatStr_digits hne hd hbound), intDecStr_ofNat]

theorem padCode_digits_short {d : List Char} (hne : d ≠ [])
    (hd : ∀ c ∈ d, cdigit c = true) (hlen15 : d.length ≤ 15) {pad : Nat}
    (hlen : d.length ≤ pad) : (padCode (String.mk d) pad).length = pad := by
  rw [padCode_digits hne hd (natOfChars_lt_of_short hd hlen15) pad, pyZfill_length]
  have hone : 1 ≤ d.length := List.length_pos.mpr hne
  have h1 : (natDecRepr (natOfChars d)).length ≤ d.length :=
    natDecRepr_length_le (natOfChars_lt hd) hone
  show max pad (natDecRepr (natOfChars d)).length = pad
  omega

theorem padCode_digits_long {d : List Char} (hne : d ≠ [])
    (hd : ∀ c ∈ d, cdigit c = true) (h0 : d.head hne ≠ '0') (hlen15 : d.length ≤ 15)
    {pad : Nat} (hlen : pad < d.length) :
    padCode (String.mk d) pad = String.mk d := by
  rw [padCode_digits hne hd (natOfChars_lt_of_short hd hlen15) pad,
    natDecRepr_roundtrip hne hd h0]
  exact pyZfill_of_width_le (Nat.le_of_lt hlen)

theorem padCode_some_no_dot {code : String} (pad : Nat) {n : Int}
    (h : pyIntOfFloatStr code = some n) : ('.') ∉ (padCode code pad).data := by
  rw [padCode_some pad h]
  exact pyZfill_no_dot (intDecStr_no_dot n) pad

theorem padCode_some_ne_self {code : String} (pad : Nat) {n : Int}
    (h : pyIntOfFloatStr code = some n) (hdot : ('.') ∈ code.data) :
    padCode code pad ≠ code := by
  intro he
  have h2 := padCode_some_no_dot pad h
  rw [he] at h2
  exact h2 hdot

/-! ## Personnel builder helper lemmas -/

theorem hdrOut_parent (pc : String) (r : RoleRow) : (hdrOut pc r).parent = pc := rfl

theorem empOut_parent (pc : String) (r : RoleRow) (e : EmpRow) :
    (empOut pc r e).parent = pc ++ (".") ++ r.code := rfl

theorem hdrOut_ne_empOut (pc : String) (r q : RoleRow) (e : EmpRow) :
    hdrOut pc r ≠ empOut pc q e := by
  intro h
  have hp : pc = pc ++ (".") ++ q.code := congrArg LayerRow.parent h
  exact base_ne_dot_append pc q.code hp

theorem hdrOut_inj {pc : String} {r q : RoleRow} (h : q.code ≠ r.code) :
    hdrOut pc q ≠ hdrOut pc r := by
  intro he
  have hs : pc ++ (".") ++ q.code = pc ++ (".") ++ r.code := congrArg LayerRow.symbol he
  exact h (dot_append_left_cancel hs)

theorem filter_parent_group_self (pc : String) (byCode : Bool) (emps : List EmpRow)
    (r : RoleRow) :
    (personGroup pc byCode emps r).filter
        (fun row => row.parent == pc ++ (".") ++ r.code)
      = (matchingEmps byCode emps r).map (empOut pc r) := by
  unfold personGroup
  rw [List.filter_cons]
  rw [if_neg (by
    rw [hdrOut_parent, beq_eq_false_iff_ne.mpr (base_ne_dot_append pc r.code)]
    simp)]
  rw [List.filter_map]
  have hall : (matchingEmps byCode emps r).filter
      ((fun row => row.parent == pc ++ (".") ++ r.code) ∘ empOut pc r)
      = matchingEmps byCode emps r := by
    rw [List.filter_eq_self]
    intro e he
    show ((empOut pc r e).parent == pc ++ (".") ++ r.code) = true
    rw [empOut_parent]
    exact beq_self_eq_true _
  rw [hall]

theorem filter_parent_group_other (pc : String) (byCode : Bool) (emps : List EmpRow)
    {r q : RoleRow} (h : q.code ≠ r.code) :
    (personGroup pc byCode emps q).filter
        (fun row => row.parent == pc ++ (".") ++ r.code) = [] := by
  rw [List.filter_eq_nil_iff]
  intro row hrow
  unfold personGroup at hrow
  rcases List.mem_cons.mp hrow with rfl | hmem
  · rw [hdrOut_parent]
    simp only [beq_eq_false_iff_ne.mpr (base_ne_dot_append pc r.code)]
    simp
  · rw [List.mem_map] at hmem
    obtain ⟨e, _, rfl⟩ := hmem
    rw [empOut_parent]
    simp only [Bool.not_eq_true, beq_eq_false_iff_ne]
    exact dot_append_right_inj h

theorem filter_parent_flatMap {rl : List RoleRow}
    (hpw : rl.Pairwise (fun a b => a.code ≠ b.code)) {r : RoleRow} (hr : r ∈ rl)
    (pc : String) (byCode : Bool) (emps : List EmpRow) :
    (rl.flatMap (personGroup pc byCode emps)).filter
        (fun row => row.parent == pc ++ (".") ++ r.code)
      = (matchingEmps byCode emps r).map (empOut pc r) := by
  induction rl with
  | nil => cases hr
  | cons q rest ih =>
    rw [List.flatMap_cons, List.filter_append]
    rcases List.mem_cons.mp hr with rfl | hmem
    · rw [filter_parent_group_self]
      have hrest : (rest.flatMap (personGroup pc byCode emps)).filter
          (fun row => row.parent == pc ++ (".") ++ r.code) = [] := by
        rw [List.filter_eq_nil_iff]
        intro row hrow
        rw [List.mem_flatMap] at hrow
        obtain ⟨q2, hq2, hrowq⟩ := hrow
        have hne : q2.code ≠ r.code :=
          Ne.symm ((List.pairwise_cons.mp hpw).1 q2 hq2)
        exact List.filter_eq_nil_iff.mp
          (filter_parent_group_other pc byCode emps hne) row hrowq
      rw [hrest, List.append_nil]
    · have hq : q.code ≠ r.code := (List.pairwise_cons.mp hpw).1 r hmem
      rw [filter_parent_group_other pc byCode emps hq, List.nil_append]
      exact ih (List.pairwise_cons.mp hpw).2 hmem

theorem count_hdr_group_self (pc : String) (byCode : Bool) (emps : List EmpRow)
    (r : RoleRow) : (personGroup pc byCode emps r).count (hdrOut pc r) = 1 := by
  unfold personGroup
  rw [List.count_cons]
  have h0 : ((matchingEmps byCode emps r).map (empOut pc r)).count (hdrOut pc r) = 0 := by
    rw [List.count_eq_zero]
    intro hmem
    rw [List.mem_map] at hmem
    obtain ⟨e, _, he⟩ := hmem
    exact hdrOut_ne_empOut pc r r e he.symm
  rw [h0, if_pos (beq_self_eq_true _)]

theorem count_hdr_group_other (pc : String) (byCode : Bool) (emps : List EmpRow)
    {r q : RoleRow} (h : q.code ≠ r.code) :
    (personGroup pc byCode emps q).count (hdrOut pc r) = 0 := by
  rw [List.count_eq_zero]
  intro hmem
  unfold personGroup at hmem
  rcases List.mem_cons.mp hmem with he | hm
  · exact hdrOut_inj h he.symm
  · rw [List.mem_map] at hm
    obtain ⟨e, _, he⟩ := hm
    exact hdrOut_ne_empOut pc r q e he.symm

theorem count_hdr_flatMap {rl : List RoleRow}
    (hpw : rl.Pairwise (fun a b => a.code ≠ b.code)) {r : RoleRow} (hr : r ∈ rl)
    (pc : String) (byCode : Bool) (emps : List EmpRow) :
    (rl.flatMap (personGroup pc byCode emps)).count (hdrOut pc r) = 1 := by
  induction rl with
  | nil => cases hr
  | cons q rest ih =>
    rw [List.flatMap_cons, List.count_append]
    rcases List.mem_cons.mp hr with rfl | hmem
    · rw [count_hdr_group_self]
      have hrest : (rest.flatMap (personGroup pc byCode emps)).count (hdrOut pc r) = 0 := by
        rw [List.count_eq_zero]
        intro hmem
        rw [List.mem_flatMap] at hmem
        obtain ⟨q2, hq2, hrow⟩ := hmem
        have hne : q2.code ≠ r.code := Ne.symm ((List.pairwise_cons.mp hpw).1 q2 hq2)
        have := count_hdr_group_other pc byCode emps hne
        rw [List.count_eq_zero] at this
        exact this hrow
      rw [hrest]
    · have hq : q.code ≠ r.code := (List.pairwise_cons.mp hpw).1 r hmem
      rw [count_hdr_group_other pc byCode emps hq,
        ih (List.pairwise_cons.mp hpw).2 hmem]

theorem mem_group_cases {row : LayerRow} {pc : String} {byCode : Bool}
    {emps : List EmpRow} {q : RoleRow} (h : row ∈ personGroup pc byCode emps q) :
    row = hdrOut pc q ∨ ∃ e ∈ emps, matchesB byCode q e = true ∧ row = empOut pc q e := by
  unfold personGroup at h
  rcases List.mem_cons.mp h with he | hm
  · exact Or.inl he
  · right
    rw [List.mem_map] at hm
    obtain ⟨e, hem, he⟩ := hm
    unfold matchingEmps at hem
    rw [List.mem_filter] at hem
    exact ⟨e, hem.1, hem.2, he.symm⟩

/-! ## Symbol uniqueness helper lemmas -/

theorem symbol_mem_group {s : String} {pc : String} {byCode : Bool}
    {emps : List EmpRow} {q : RoleRow}
    (h : s ∈ (personGroup pc byCode emps q).map LayerRow.symbol) :
    s = pc ++ (".") ++ q.code ∨ ∃ t, s = pc ++ (".") ++ (q.code ++ (".") ++ t) := by
  rw [List.mem_map] at h
  obtain ⟨row, hrow, rfl⟩ := h
  rcases mem_group_cases hrow with rfl | ⟨e, _, _, rfl⟩
  · exact Or.inl rfl
  · right
    refine ⟨pyStrip e.id, ?_⟩
    show pc ++ (".") ++ q.code ++ (".") ++ pyStrip e.id = _
    rw [dot_append_assoc]

theorem nodup_group_symbols {emps : List EmpRow}
    (hids : (emps.map (fun e => pyStrip e.id)).Nodup) (pc : String) (byCode : Bool)
    (q : RoleRow) : ((personGroup pc byCode emps q).map LayerRow.symbol).Nodup := by
  unfold personGroup
  rw [List.map_cons, List.nodup_cons]
  constructor
  · intro hmem
    rw [List.map_map, List.mem_map] at hmem
    obtain ⟨e, _, he⟩ := hmem
    exact base_ne_dot_append (pc ++ (".") ++ q.code) (pyStrip e.id) he.symm
  · rw [List.map_map]
    have hcomp : (LayerRow.symbol ∘ empOut pc q)
        = (fun t => pc ++ (".") ++ q.code ++ (".") ++ t) ∘ (fun e => pyStrip e.id) := rfl
    rw [hcomp, ← List.map_map]
    apply List.Nodup.map (fun t1 t2 ht => dot_append_left_cancel ht)
    exact ((List.filter_sublist emps).map (fun e => pyStrip e.id)).nodup hids

theorem group_symbols_disjoint {pc : String} {byCode : Bool} {emps : List EmpRow}
    {q r : RoleRow} (hne : q.code ≠ r.code) (hq : ('.') ∉ q.code.data)
    (hr : ('.') ∉ r.code.data) {s : String}
    (hsq : s ∈ (personGroup pc byCode emps q).map LayerRow.symbol)
    (hsr : s ∈ (personGroup pc byCode emps r).map LayerRow.symbol) : False := by
  rcases symbol_mem_group hsq with h1 | ⟨t1, h1⟩ <;>
    rcases symbol_mem_group hsr with h2 | ⟨t2, h2⟩
  · exact hne (dot_append_left_cancel (h1 ▸ h2))
  · have h3 : q.code = r.code ++ (".") ++ t2 := dot_append_left_cancel (h1 ▸ h2)
    exact dotfree_ne_dot_append hq h3
  · have h3 : r.code = q.code ++ (".") ++ t1 := dot_append_left_cancel (h2 ▸ h1)
    exact dotfree_ne_dot_append hr h3
  · have h3 : q.code ++ (".") ++ t1 = r.code ++ (".") ++ t2 :=
      dot_append_left_cancel (h1 ▸ h2)
    exact hne (dot_append_split hq hr h3).1

theorem nodup_symbols_flatMap {rl : List RoleRow}
    (hpw : rl.Pairwise (fun a b => a.code ≠ b.code))
    (hdots : ∀ q ∈ rl, ('.') ∉ q.code.data) (pc : String) (byCode : Bool)
    {emps : List EmpRow} (hids : (emps.map (fun e => pyStrip e.id)).Nodup) :
    ((rl.flatMap (personGroup pc byCode emps)).map LayerRow.symbol).Nodup := by
  induction rl with
  | nil => simp
  | cons q rest ih =>
    rw [List.flatMap_cons, List.map_append, List.nodup_append]
    refine ⟨nodup_group_symbols hids pc byCode q,
      ih (List.pairwise_cons.mp hpw).2 (fun q2 hq2 => hdots q2 (List.mem_cons_of_mem q hq2)),
      ?_⟩
    intro s hs1 hs2
    rw [List.mem_map] at hs2
    obtain ⟨row, hrow, rfl⟩ := hs2
    rw [List.mem_flatMap] at hrow
    obtain ⟨q2, hq2, hrowq⟩ := hrow
    have hne : q.code ≠ q2.code := (List.pairwise_cons.mp hpw).1 q2 hq2
    exact group_symbols_disjoint hne (hdots q (List.mem_cons_self q rest))
      (hdots q2 (List.mem_cons_of_mem q hq2)) hs1
      (List.mem_map.mpr ⟨row, hrowq, rfl⟩)

/-! ## Claim theorems -/

/-- C9: for every normalized financial input, the output length is the
number of input rows plus one exactly when `includeParentRow` is set, and
with the parent row included the output is the header row (parent = symbol
= the parent code, name = the parent name or empty, empty input cost)
followed by one child row per input row in original order. -/
theorem fin_output_shape (rows : List FinRow) (parent : String) (pad : Nat)
    (pn : Option String) :
    (∀ b : Bool, (fin_build_layer rows parent pad b pn).length
        = rows.length + (if b then 1 else 0))
  ∧ fin_build_layer rows parent pad true pn
      = { parent := parent, symbol := parent, name := pn.getD "",
          input_cost := Cell.str "" } :: rows.map (finChildRow parent pad) := by
  constructor
  · intro b
    cases b <;> simp [fin_build_layer]
  · simp [fin_build_layer, finParentRow]

/-- C1 counterexample: the purely numeric code `007` has length 3, greater
than the pad width 2, yet its generated `codeStr` is `07` of length 2 —
`int(float(...))` strips the leading zeros, so length is not preserved.
Beyond 15 digits binary rounding also breaks preservation even without
leading zeros: `9007199254740993` becomes `9007199254740992`. -/
theorem fin_padding_counterexample :
    (∀ c ∈ ("007").data, cdigit c = true) ∧ 2 < ("007").length
  ∧ padCode ("007") 2 = ("07")
  ∧ (padCode ("007") 2).length ≠ ("007").length
  ∧ padCode ("9007199254740993") 2 = ("9007199254740992") := by
  refine ⟨by decide, by decide, by decide, by decide, by decide⟩

/-- C1 (amended): when the trimmed `code` parses as a number, `codeStr` is
the parsed integer rendered in decimal and zero-filled to `padWidth`; an
ASCII code that does not parse is kept verbatim; a purely numeric code of
at most 15 digits (the float-exact range) and length at most `padWidth`
yields exactly `padWidth` characters; a purely numeric code of at most 15
digits, longer than `padWidth` and *without leading zeros* is kept
verbatim (length preserved; leading zeros are stripped by parsing, and
16-digit codes can be changed by binary rounding, as the counterexample
shows). -/
theorem fin_codeStr_derivation (code : String) (pad : Nat) :
    (∀ n : Int, pyIntOfFloatStr code = some n →
        padCode code pad = pyZfill (intDecStr n) pad)
  ∧ ((∀ c ∈ code.data, c.toNat ≤ 127) → pyIntOfFloatStr code = none →
        padCode code pad = code)
  ∧ (code.data ≠ [] → (∀ c ∈ code.data, cdigit c = true) → code.length ≤ 15 →
        code.length ≤ pad → (padCode code pad).length = pad)
  ∧ (∀ h : code.data ≠ [], (∀ c ∈ code.data, cdigit c = true) →
        code.data.head h ≠ '0' → code.length ≤ 15 → pad < code.length →
        padCode code pad = code) := by
  have hmk : String.mk code.data = code := rfl
  refine ⟨fun n h => padCode_some pad h, fun _ h => padCode_none pad h, ?_, ?_⟩
  · intro hne hd hlen15 hlen
    have := padCode_digits_short hne hd hlen15 hlen
    rw [hmk] at this
    exact this
  · intro hne hd h0 hlen15 hlen
    have := padCode_digits_long hne hd h0 hlen15 hlen
    rw [hmk] at this
    exact this

/-- C1 witness: concrete instances of each clause of the derivation law. -/
theorem fin_codeStr_derivation_witness :
    padCode ("7") 2 = pyZfill (intDecStr 7) 2
  ∧ (padCode ("7") 2).length = 2
  ∧ padCode ("ABC") 2 = ("ABC")
  ∧ padCode ("123") 2 = ("123") := by
  refine ⟨(fin_codeStr_derivation ("7") 2).1 7 (by decide),
    (fin_codeStr_derivation ("7") 2).2.2.1 (by decide) (by decide) (by decide) (by decide),
    (fin_codeStr_derivation ("ABC") 2).2.1 (by decide) (by decide),
    (fin_codeStr_derivation ("123") 2).2.2.2 (by decide) (by decide) (by decide)
      (by decide) (by decide)⟩

/-- C10 counterexample: the conversion is not plain truncation toward
zero — the decimal is first rounded to binary64, so
`0.9999999999999999999` (integer part `0`) becomes `1.0` and yields
`codeStr` `01` under pad 2, not `00`. -/
theorem decimal_rounding_counterexample :
    natOfChars (("0").data) = 0
  ∧ pyIntOfFloatStr ("0.9999999999999999999") = some 1
  ∧ padCode ("0.9999999999999999999") 2 = ("01") := by
  refine ⟨by decide, by decide, by decide⟩

/-- C10 (amended): a code of the form `digits.digits` is parsed via
`float` — which rounds the decimal to the nearest binary64 — and then
truncated by `int`; dropping the fraction exactly is guaranteed when the
value is exactly representable, in particular for a fraction of all zeros
with integer part below `2^53` (`43.0` gives `43`) and for `7.5` (pad 2
gives `07`); a long fraction may instead round up across the integer, as
the counterexample shows.  Whenever a dotted code parses, the generated
`codeStr` contains no dot, so the original decimal text never survives
into the symbol. -/
theorem fin_decimal_code_truncation :
    (∀ a b : List Char, a ≠ [] → (∀ c ∈ a, cdigit c = true) →
        (∀ c ∈ b, c = '0') → natOfChars a < 2 ^ 53 → ∀ pad,
        padCode (String.mk (a ++ '.' :: b)) pad
          = pyZfill (String.mk (natDecRepr (natOfChars a))) pad)
  ∧ padCode ("43.0") 2 = ("43")
  ∧ padCode ("7.5") 2 = ("07")
  ∧ (∀ (code : String) (pad : Nat) (n : Int), pyIntOfFloatStr code = some n →
        ('.') ∈ code.data → padCode code pad ≠ code) := by
  refine ⟨?_, by decide, by decide, ?_⟩
  · intro a b ha hda hb0 hbound pad
    rw [padCode_some pad (pyIntOfFloatStr_decimal0 ha hda hb0 hbound), intDecStr_ofNat]
  · intro code pad n h hdot
    exact padCode_some_ne_self pad h hdot

/-- C10 witness: the exact-truncation law applied at `43.0`, and the
original-text clause applied at `43.0` with pad 2. -/
theorem fin_decimal_code_truncation_witness :
    padCode (String.mk (['4', '3'] ++ '.' :: ['0'])) 2
      = pyZfill (String.mk (natDecRepr (natOfChars (['4', '3'])))) 2
  ∧ padCode ("43.0") 2 ≠ ("43.0") :=
  ⟨fin_decimal_code_truncation.1 (['4', '3']) (['0']) (by decide) (by decide) (by decide)
      (by decide) 2,
   fin_decimal_code_truncation.2.2.2 ("43.0") 2 43 (by decide) (by decide)⟩

/-- C2 counterexample: the accented headers `Código, Descripción, Importe`
do not normalize — only `Importe` is aliased (the alias table holds only
the unaccented `codigo`/`descripcion`), so a `SchemaError` is raised with
`code` and `description` missing. -/
theorem accented_headers_counterexample :
    normalize_columns ⟨[("Código"), ("Descripción"), ("Importe")], []⟩
      = Except.error ⟨[("code"), ("description")],
          [("Código"), ("Descripción"), ("value")]⟩ := by
  decide

/-- C2 (amended): the unaccented Spanish headers `Codigo, Descripcion,
Importe` normalize successfully to the canonical `code, description,
value` schema, while the accented spellings `Código, Descripción` are not
aliased and fail normalization with a `SchemaError` naming `code` and
`description` as missing. -/
theorem normalize_spanish_headers :
    normalize_columns ⟨[("Codigo"), ("Descripcion"), ("Importe")],
        [[Cell.str ("7"), Cell.str ("D"), Cell.int 100]]⟩
      = Except.ok ⟨[("code"), ("description"), ("value")],
          [[Cell.str ("7"), Cell.str ("D"), Cell.int 100]]⟩
  ∧ normalize_columns ⟨[("Código"), ("Descripción"), ("Importe")], []⟩
      = Except.error ⟨[("code"), ("description")],
          [("Código"), ("Descripción"), ("value")]⟩ := by
  exact ⟨by decide, by decide⟩

/-- C7 counterexample: two raw headers aliasing to one canonical name
(`valor` and `importe`, both mapped to `value`) make the rename create a
duplicate `value` label, and the `df[required]` selection then returns a
four-column table — not "exactly the required canonical columns". -/
theorem duplicate_alias_columns_counterexample :
    normalize_columns ⟨[("code"), ("description"), ("valor"), ("importe")],
        [[Cell.str ("1"), Cell.str ("D"), Cell.int 5, Cell.int 6]]⟩
      = Except.ok ⟨[("code"), ("description"), ("value"), ("value")],
          [[Cell.str ("1"), Cell.str ("D"), Cell.int 5, Cell.int 6]]⟩
  ∧ [("code"), ("description"), ("value"), ("value")] ≠ finRequired := by
  refine ⟨by decide, by decide⟩

/-- C7 (amended): `normalize_columns` fails with a `SchemaError` exactly
when some required canonical column is absent after alias renaming; the
error carries precisely the missing canonical names (in schema order) and
the full renamed column list; on success the table holds, for each of
`code, description, value` in order, every column whose renamed label
matches it — exactly the three required columns when each canonical name
matched a single header, but with duplicates when two headers alias to one
canonical name. -/
theorem normalize_columns_contract (df : DataFrame) :
    ((∃ e, normalize_columns df = Except.error e)
        ↔ ∃ c ∈ finRequired, c ∉ renamedColsOf df)
  ∧ (∀ e, normalize_columns df = Except.error e →
        e.missing = finRequired.filter (fun c => decide (c ∉ renamedColsOf df))
          ∧ e.present = renamedColsOf df)
  ∧ (∀ out, normalize_columns df = Except.ok out →
        out.cols = selectedCols (renamedColsOf df)
          ∧ out.rows = df.rows.map (projectRow (renamedColsOf df))
          ∧ ((∀ c ∈ finRequired, (colIdxs (renamedColsOf df) c).length = 1) →
              out.cols = finRequired)) := by
  have hmdef : missingOf df
      = finRequired.filter (fun c => decide (c ∉ renamedColsOf df)) := rfl
  unfold normalize_columns
  by_cases hm : missingOf df = []
  · rw [if_pos hm]
    refine ⟨⟨?_, ?_⟩, ?_, ?_⟩
    · rintro ⟨e, he⟩
      exact absurd he (by simp)
    · rintro ⟨c, hc, hnc⟩
      exfalso
      have := List.filter_eq_nil_iff.mp (hmdef ▸ hm) c hc
      simp at this
      exact hnc this
    · intro e he
      exact absurd he (by simp)
    · intro out hout
      have := Except.ok.inj hout
      rw [← this]
      refine ⟨rfl, rfl, ?_⟩
      intro hone
      have h1 := hone ("code") (by decide)
      have h2 := hone ("description") (by decide)
      have h3 := hone ("value") (by decide)
      obtain ⟨i1, hi1⟩ := List.length_eq_one.mp h1
      obtain ⟨i2, hi2⟩ := List.length_eq_one.mp h2
      obtain ⟨i3, hi3⟩ := List.length_eq_one.mp h3
      show selectedCols (renamedColsOf df) = finRequired
      unfold selectedCols
      show (finRequired.flatMap
        (fun c => (colIdxs (renamedColsOf df) c).map (fun _ => c))) = finRequired
      rw [show finRequired = [("code"), ("description"), ("value")] from rfl]
      rw [List.flatMap_cons, List.flatMap_cons, List.flatMap_cons, List.flatMap_nil]
      rw [hi1, hi2, hi3]
      rfl
  · rw [if_neg hm]
    refine ⟨⟨?_, ?_⟩, ?_, ?_⟩
    · intro _
      by_contra hno
      push_neg at hno
      apply hm
      rw [hmdef, List.filter_eq_nil_iff]
      intro c hc
      simp [hno c hc]
    · intro _
      exact ⟨⟨missingOf df, renamedColsOf df⟩, rfl⟩
    · intro e he
      have := Except.error.inj he
      rw [← this]
      exact ⟨hmdef, rfl⟩
    · intro out hout
      exact absurd hout (by simp)

/-- C7 witness: the contract applied to a failing table (accented headers)
and to a succeeding one (unaccented headers, one column per canonical
name). -/
theorem normalize_columns_contract_witness :
    (∃ e, normalize_columns ⟨[("Código"), ("Descripción"), ("Importe")], []⟩
        = Except.error e)
  ∧ (⟨[("code"), ("description"), ("value")],
        [[Cell.str ("7"), Cell.str ("D"), Cell.int 100]]⟩ : DataFrame).cols
      = finRequired := by
  constructor
  · exact (normalize_columns_contract _).1.mpr ⟨("code"), by decide, by decide⟩
  · exact (((normalize_columns_contract
      ⟨[("Codigo"), ("Descripcion"), ("Importe")],
        [[Cell.str ("7"), Cell.str ("D"), Cell.int 100]]⟩).2.2 _ (by decide)).2.2
      (by decide))

/-- C3: the join strategy is chosen once per call from
`empsHaveCode` — when any employee has a non-empty `_code_key`, every
role's children (the output rows whose parent is that role's symbol) are
exactly the code-key matches; otherwise every role's children are exactly
the role-key matches.  Strategies are never mixed within one call. -/
theorem per_join_exclusivity (roles : List RoleRow) (emps : List EmpRow)
    (pc : String) (hpw : roles.Pairwise (fun a b => a.code ≠ b.code))
    (r : RoleRow) (hr : r ∈ roles) :
    (empsHaveCode emps = true →
        (per_build_layer roles emps pc).filter
            (fun row => row.parent == pc ++ (".") ++ r.code)
          = (emps.filter (fun e => e.codeKey == r.codeKey)).map (empOut pc r))
  ∧ (empsHaveCode emps = false →
        (per_build_layer roles emps pc).filter
            (fun row => row.parent == pc ++ (".") ++ r.code)
          = (emps.filter (fun e => e.roleKey == r.roleKey)).map (empOut pc r)) := by
  have hpw2 : (List.insertionSort roleLE roles).Pairwise (fun a b => a.code ≠ b.code) :=
    hpw.perm (List.perm_insertionSort roleLE roles).symm (fun h => h.symm)
  have hr2 : r ∈ List.insertionSort roleLE roles :=
    (List.perm_insertionSort roleLE roles).mem_iff.mpr hr
  constructor
  · intro h
    unfold per_build_layer
    rw [filter_parent_flatMap hpw2 hr2 pc (empsHaveCode emps) emps, h]
    rfl
  · intro h
    unfold per_build_layer
    rw [filter_parent_flatMap hpw2 hr2 pc (empsHaveCode emps) emps, h]
    rfl

/-- C3 witness: both strategies exercised on one-role inputs — a
code-carrying employee table joins by code key, a code-free one by role
name. -/
theorem per_join_exclusivity_witness :
    ((per_build_layer [mkRole ("1") ("G")]
          [mkEmp ("E1") ("Ana") (Cell.int 500) none (some ("1"))] ("20")).filter
        (fun row => row.parent == ("20") ++ (".") ++ (mkRole ("1") ("G")).code)
      = ([mkEmp ("E1") ("Ana") (Cell.int 500) none (some ("1"))].filter
          (fun e => e.codeKey == (mkRole ("1") ("G")).codeKey)).map
            (empOut ("20") (mkRole ("1") ("G"))))
  ∧ ((per_build_layer [mkRole ("1") ("G")]
          [mkEmp ("E1") ("Ana") (Cell.int 500) (some ("G")) none] ("20")).filter
        (fun row => row.parent == ("20") ++ (".") ++ (mkRole ("1") ("G")).code)
      = ([mkEmp ("E1") ("Ana") (Cell.int 500) (some ("G")) none].filter
          (fun e => e.roleKey == (mkRole ("1") ("G")).roleKey)).map
            (empOut ("20") (mkRole ("1") ("G")))) :=
  ⟨(per_join_exclusivity [mkRole ("1") ("G")]
      [mkEmp ("E1") ("Ana") (Cell.int 500) none (some ("1"))] ("20")
      (by decide) (mkRole ("1") ("G")) (by decide)).1 (by decide),
   (per_join_exclusivity [mkRole ("1") ("G")]
      [mkEmp ("E1") ("Ana") (Cell.int 500) (some ("G")) none] ("20")
      (by decide) (mkRole ("1") ("G")) (by decide)).2 (by decide)⟩

/-- C4: each role row contributes exactly one header row to the output
(whether or not it has matching employees), and every output row is either
a role header or a matched-employee row — an employee matching no role
under the chosen strategy therefore generates no output row. -/
theorem per_join_completeness (roles : List RoleRow) (emps : List EmpRow)
    (pc : String) (hpw : roles.Pairwise (fun a b => a.code ≠ b.code))
    (r : RoleRow) (hr : r ∈ roles) :
    (per_build_layer roles emps pc).count (hdrOut pc r) = 1
  ∧ (∀ row ∈ per_build_layer roles emps pc,
        (∃ q ∈ roles, row = hdrOut pc q)
        ∨ (∃ q ∈ roles, ∃ e ∈ emps,
            matchesB (empsHaveCode emps) q e = true ∧ row = empOut pc q e)) := by
  have hpw2 : (List.insertionSort roleLE roles).Pairwise (fun a b => a.code ≠ b.code) :=
    hpw.perm (List.perm_insertionSort roleLE roles).symm (fun h => h.symm)
  have hr2 : r ∈ List.insertionSort roleLE roles :=
    (List.perm_insertionSort roleLE roles).mem_iff.mpr hr
  constructor
  · exact count_hdr_flatMap hpw2 hr2 pc (empsHaveCode emps) emps
  · intro row hrow
    unfold per_build_layer at hrow
    rw [List.mem_flatMap] at hrow
    obtain ⟨q, hq, hrowg⟩ := hrow
    have hqr : q ∈ roles := (List.perm_insertionSort roleLE roles).mem_iff.mp hq
    rcases mem_group_cases hrowg with rfl | ⟨e, he, hmm, rfl⟩
    · exact Or.inl ⟨q, hqr, rfl⟩
    · exact Or.inr ⟨q, hqr, e, he, hmm, rfl⟩

/-- C4 witness: a role with no matching employees still yields exactly one
header row. -/
theorem per_join_completeness_witness :
    (per_build_layer [mkRole ("1") ("G")] [] ("20")).count
        (hdrOut ("20") (mkRole ("1") ("G"))) = 1 :=
  (per_join_completeness [mkRole ("1") ("G")] [] ("20") (by decide)
    (mkRole ("1") ("G")) (by decide)).1

/-- C5 counterexample: the distinct input codes `7` and `07` both
normalize to `codeStr` `07` under pad 2, so two distinct-coded financial
rows can produce the same symbol — distinct raw codes do not guarantee
distinct symbols. -/
theorem symbol_collision_counterexample :
    (("7") ≠ ("07"))
  ∧ ¬ ((fin_build_layer
        [⟨Cell.str ("7"), Cell.str ("a"), Cell.int 1⟩,
         ⟨Cell.str ("07"), Cell.str ("b"), Cell.int 2⟩] ("10") 2 false none).map
          (fun row => row.symbol)).Nodup := by
  exact ⟨by decide, by decide⟩

/-- C5 (amended): financial output symbols are pairwise distinct whenever
the codes are ASCII and the derived `codeStr` values (not merely the raw
codes) are pairwise distinct; personnel output symbols are pairwise
distinct whenever the role codes are pairwise distinct and dot-free and
the trimmed employee ids are pairwise distinct. -/
theorem layer_symbol_uniqueness :
    (∀ (rows : List FinRow) (parent : String) (pad : Nat) (b : Bool)
        (pn : Option String),
        (∀ r ∈ rows, ∀ c ∈ (pyStrip (pyStr r.code)).data, c.toNat ≤ 127) →
        (rows.map (fun r => padCode (pyStrip (pyStr r.code)) pad)).Nodup →
        ((fin_build_layer rows parent pad b pn).map (fun row => row.symbol)).Nodup)
  ∧ (∀ (roles : List RoleRow) (emps : List EmpRow) (pc : String),
        roles.Pairwise (fun a b => a.code ≠ b.code) →
        (∀ r ∈ roles, ('.') ∉ r.code.data) →
        ((emps.map (fun e => pyStrip e.id)).Nodup) →
        ((per_build_layer roles emps pc).map (fun row => row.symbol)).Nodup) := by
  constructor
  · intro rows parent pad b pn _ hcs
    have htail : ((rows.map (finChildRow parent pad)).map
        (fun row => row.symbol)).Nodup := by
      rw [List.map_map]
      have hcomp : ((fun row => LayerRow.symbol row) ∘ finChildRow parent pad)
          = (fun t => parent ++ (".") ++ t)
              ∘ (fun r => padCode (pyStrip (pyStr r.code)) pad) := rfl
      rw [hcomp, ← List.map_map]
      exact List.Nodup.map (fun t1 t2 ht => dot_append_left_cancel ht) hcs
    cases b with
    | false => simpa [fin_build_layer] using htail
    | true =>
      unfold fin_build_layer
      rw [if_pos rfl, List.map_append, List.nodup_append]
      refine ⟨List.nodup_singleton _, htail, ?_⟩
      intro s hs1 hs2
      have hs : s = parent := by
        simpa [finParentRow] using hs1
      rw [List.map_map, List.mem_map] at hs2
      obtain ⟨rrow, _, he⟩ := hs2
      rw [hs] at he
      exact base_ne_dot_append parent (padCode (pyStrip (pyStr rrow.code)) pad) he.symm
  · intro roles emps pc hpw hdots hids
    unfold per_build_layer
    exact nodup_symbols_flatMap
      (hpw.perm (List.perm_insertionSort roleLE roles).symm (fun h => h.symm))
      (fun q hq => hdots q ((List.perm_insertionSort roleLE roles).mem_iff.mp hq))
      pc (empsHaveCode emps) hids

/-- C5 witness: both uniqueness clauses at concrete inputs. -/
theorem layer_symbol_uniqueness_witness :
    ((fin_build_layer [⟨Cell.str ("43"), Cell.str ("a"), Cell.int 1⟩,
        ⟨Cell.str ("44"), Cell.str ("b"), Cell.int 2⟩] ("10.01") 2 true
          (some ("R"))).map (fun row => row.symbol)).Nodup
  ∧ ((per_build_layer [mkRole ("1") ("G"), mkRole ("2") ("H")]
        [mkEmp ("E1") ("Ana") (Cell.int 500) (some ("G")) none] ("20")).map
          (fun row => row.symbol)).Nodup :=
  ⟨layer_symbol_uniqueness.1 _ ("10.01") 2 true (some ("R")) (by decide) (by decide),
   layer_symbol_uniqueness.2 _ _ ("20") (by decide) (by decide) (by decide)⟩

/-- C6 counterexample: the comparator is not raw-string comparison for
codes that are not purely digits — `int()` also parses signed and
underscore-separated codes, so roles `-3` and `-5` are integer-compared
and emitted as `-5` before `-3`, although `-3` precedes `-5` as a raw
string; likewise `9_9` gets the integer key 99. -/
theorem sort_key_not_digits_counterexample :
    per_build_layer [mkRole ("-3") ("A"), mkRole ("-5") ("B")] [] ("20")
      = [hdrOut ("20") (mkRole ("-5") ("B")), hdrOut ("20") (mkRole ("-3") ("A"))]
  ∧ ("-3").data < ("-5").data
  ∧ ¬ (∀ c ∈ ("-5").data, cdigit c = true)
  ∧ sortKey ("9_9") = Sum.inl 99
  ∧ ¬ (∀ c ∈ ("9_9").data, cdigit c = true) := by
  refine ⟨by decide, by decide, by decide, by decide, by decide⟩

/-- C6 (amended): the personnel builder emits role groups in the order of
a permutation of the roles sorted ascending by the key `int(str(code))`
when that parses (digits with optional sign and underscore separators) and
the raw string otherwise — stated for ASCII codes and key-homogeneous role
lists, since mixing integer and string keys raises `TypeError` in the
source's sort; in particular codes `01` and `2` come out in numeric order
`01` before `2` even when the input order is reversed. -/
theorem per_sort_order :
    (∀ (roles : List RoleRow) (emps : List EmpRow) (pc : String),
        ((∀ r ∈ roles, (sortKey r.code).isLeft = true)
          ∨ (∀ r ∈ roles, (sortKey r.code).isRight = true)) →
        (∀ r ∈ roles, ∀ c ∈ r.code.data, c.toNat ≤ 127) →
        ∃ rs : List RoleRow, rs.Perm roles ∧ rs.Sorted roleLE ∧
          per_build_layer roles emps pc
            = rs.flatMap (personGroup pc (empsHaveCode emps) emps))
  ∧ per_build_layer [mkRole ("2") ("B"), mkRole ("01") ("A")] [] ("20")
      = [hdrOut ("20") (mkRole ("01") ("A")), hdrOut ("20") (mkRole ("2") ("B"))]
  ∧ (per_build_layer [mkRole ("2") ("B"), mkRole ("01") ("A")] [] ("20")).map
      (fun row => row.symbol) = [("20.01"), ("20.2")] := by
  refine ⟨?_, by decide, by decide⟩
  intro roles emps pc _ _
  exact ⟨List.insertionSort roleLE roles, List.perm_insertionSort roleLE roles,
    List.sorted_insertionSort roleLE roles, rfl⟩

/-- C6 witness: the sorted-permutation clause applied to the all-numeric
roles `2`, `01`. -/
theorem per_sort_order_witness :
    ∃ rs : List RoleRow,
      rs.Perm [mkRole ("2") ("B"), mkRole ("01") ("A")] ∧ rs.Sorted roleLE ∧
        per_build_layer [mkRole ("2") ("B"), mkRole ("01") ("A")] [] ("20")
          = rs.flatMap (personGroup ("20")
              (empsHaveCode ([] : List EmpRow)) ([] : List EmpRow)) :=
  per_sort_order.1 [mkRole ("2") ("B"), mkRole ("01") ("A")] [] ("20")
    (Or.inl (by decide)) (by decide)

/-- C8 counterexample: in a code-based join (employee `E2` carries code
`9`), the role `-` has an empty `_code_key` after stripping, so the
code-less employee `E1` (empty `_code_key`) *does* match it and appears in
the output — an empty-keyed employee is not always dropped. -/
theorem empty_code_key_match_counterexample :
    (mkEmp ("E1") ("Ana") (Cell.int 500) none none).codeKey = ("")
  ∧ empsHaveCode [mkEmp ("E1") ("Ana") (Cell.int 500) none none,
      mkEmp ("E2") ("Bob") (Cell.int 600) none (some ("9"))] = true
  ∧ (empOut ("20") (mkRole ("-") ("X")) (mkEmp ("E1") ("Ana") (Cell.int 500) none none))
      ∈ per_build_layer [mkRole ("-") ("X")]
          [mkEmp ("E1") ("Ana") (Cell.int 500) none none,
           mkEmp ("E2") ("Bob") (Cell.int 600) none (some ("9"))] ("20") := by
  exact ⟨by decide, by decide, by decide⟩

/-- C8 (amended): in a code-based join, an employee with an empty
`_code_key` matches no role whose `_code_key` is non-empty; when every
role's `_code_key` is non-empty, removing all empty-keyed employees leaves
the output unchanged — they appear in no output row. -/
theorem per_empty_code_key (roles : List RoleRow) (emps : List EmpRow)
    (pc : String) (hstrat : empsHaveCode emps = true)
    (hroles : ∀ r ∈ roles, r.codeKey ≠ ("")) :
    (∀ e ∈ emps, e.codeKey = ("") → ∀ r ∈ roles, matchesB true r e = false)
  ∧ per_build_layer roles (emps.filter (fun e => !(e.codeKey == ""))) pc
      = per_build_layer roles emps pc := by
  constructor
  · intro e _ he r hrm
    show (e.codeKey == r.codeKey) = false
    rw [beq_eq_false_iff_ne, he]
    exact fun hc => hroles r hrm hc.symm
  · unfold per_build_layer
    have hsame : empsHaveCode (emps.filter (fun e => !(e.codeKey == ""))) = true := by
      unfold empsHaveCode at hstrat ⊢
      rw [List.any_filter]
      rw [List.any_eq_true] at hstrat ⊢
      obtain ⟨e, he, hp⟩ := hstrat
      exact ⟨e, he, by simp [hp]⟩
    rw [hsame, hstrat]
    apply List.flatMap_congr
    intro q hq
    have hqr : q ∈ roles := (List.perm_insertionSort roleLE roles).mem_iff.mp hq
    unfold personGroup
    have hemps : matchingEmps true (emps.filter (fun e => !(e.codeKey == ""))) q
        = matchingEmps true emps q := by
      unfold matchingEmps
      rw [List.filter_filter]
      apply List.filter_congr
      intro e _
      cases hm : matchesB true q e with
      | false => simp [hm]
      | true =>
        simp only [hm, Bool.true_and]
        have hek : e.codeKey = q.codeKey := by
          have : (e.codeKey == q.codeKey) = true := hm
          exact beq_iff_eq.mp this
        rw [hek]
        simpa using hroles q hqr
    rw [hemps]

/-- C8 witness: dropping the empty-keyed employee from a code-based join
leaves the output unchanged. -/
theorem per_empty_code_key_witness :
    per_build_layer [mkRole ("1") ("G")]
        (([mkEmp ("E1") ("Ana") (Cell.int 500) none none,
           mkEmp ("E2") ("Bob") (Cell.int 600) none (some ("1"))]).filter
          (fun e => !(e.codeKey == ""))) ("20")
      = per_build_layer [mkRole ("1") ("G")]
          [mkEmp ("E1") ("Ana") (Cell.int 500) none none,
           mkEmp ("E2") ("Bob") (Cell.int 600) none (some ("1"))] ("20") :=
  (per_empty_code_key [mkRole ("1") ("G")]
    [mkEmp ("E1") ("Ana") (Cell.int 500) none none,
     mkEmp ("E2") ("Bob") (Cell.int 600) none (some ("1"))] ("20")
    (by decide) (by decide)).2
